import Mathlib

/-!
Verification of the tmi-rs IRC parser core.

Byte strings are modelled as `List Nat` (each entry one byte of the UTF-8
encoding of the Rust `&str`).  The aarch64 NEON byte-scan primitives of
`src/irc/simd/arm_neon.rs` are embedded by modelling each intrinsic
(`vceqq_u8`, `vreinterpretq_u16_u8`, `vshrn_n_u16`, `vget_lane_u64`) as an
explicit function on byte lists, little-endian as on AArch64.  Recursions
that a theorem later evaluates on concrete input are written structurally
(on an explicit fuel argument large enough to never run out), so that the
kernel can reduce them.
-/

namespace TmiRs

/-- Fuelled core of `ctz`.  The fuel only bounds the recursion depth; any
fuel of at least `n` computes the number of trailing binary zeros of `n`. -/
def ctzF : Nat → Nat → Nat
  | 0, _ => 0
  | f + 1, n => if n % 2 = 1 then 0 else ctzF f (n / 2) + 1

/-- `u64::trailing_zeros`: number of trailing binary zeros, 64 for 0. -/
def ctz (n : Nat) : Nat := if n = 0 then 64 else ctzF n n

/-- Fuelled core of `setBits`. -/
def setBitsF : Nat → Nat → Nat
  | 0, _ => 0
  | f + 1, n => if n = 0 then 0 else n % 2 + setBitsF f (n / 2)

/-- `u64::count_ones`: number of set bits of `n`. -/
def setBits (n : Nat) : Nat := setBitsF n n

theorem ctzF_fuel : ∀ f g n, n ≠ 0 → n ≤ f → n ≤ g → ctzF f n = ctzF g n := by
  intro f
  induction f with
  | zero => intro g n h hf; omega
  | succ f ih =>
    intro g n h hf hg
    obtain ⟨g', rfl⟩ : ∃ g', g = g' + 1 := ⟨g - 1, by omega⟩
    simp only [ctzF]
    by_cases ho : n % 2 = 1
    · simp [ho]
    · have h2 : n / 2 ≠ 0 := by omega
      have := ih g' (n / 2) h2 (by omega) (by omega)
      simp [ho, this]

theorem ctz_odd {n : Nat} (h : n % 2 = 1) : ctz n = 0 := by
  obtain ⟨m, rfl⟩ : ∃ m, n = m + 1 := ⟨n - 1, by omega⟩
  simp [ctz, ctzF, h]

theorem ctz_double {n : Nat} (h : n ≠ 0) : ctz (2 * n) = ctz n + 1 := by
  obtain ⟨m, hm⟩ : ∃ m, 2 * n = m + 1 := ⟨2 * n - 1, by omega⟩
  unfold ctz
  rw [hm]
  simp only [if_neg (by omega : ¬ m + 1 = 0), if_neg h]
  simp only [ctzF]
  have he : (m + 1) % 2 = 0 := by omega
  have hd : (m + 1) / 2 = n := by omega
  simp only [he, hd]
  rw [if_neg (by norm_num : ¬ (0 : Nat) = 1), ctzF_fuel m n n h (by omega) (by omega)]

theorem ctz_16mul {n : Nat} (h : n ≠ 0) : ctz (16 * n) = ctz n + 4 := by
  have e1 : (16 : Nat) * n = 2 * (2 * (2 * (2 * n))) := by ring
  rw [e1, ctz_double (by omega), ctz_double (by omega), ctz_double (by omega),
    ctz_double h]

theorem setBitsF_fuel : ∀ f g n, n ≤ f → n ≤ g → setBitsF f n = setBitsF g n := by
  intro f
  induction f with
  | zero =>
    intro g n hf _; interval_cases n
    cases g <;> simp [setBitsF]
  | succ f ih =>
    intro g n hf hg
    match g, n with
    | 0, n =>
      have : n = 0 := by omega
      simp [this, setBitsF]
    | g + 1, 0 => simp [setBitsF]
    | g + 1, n + 1 =>
      simp only [setBitsF]
      have := ih g ((n + 1) / 2) (by omega) (by omega)
      simp [this]

theorem setBits_zero : setBits 0 = 0 := rfl

theorem setBits_double {n : Nat} : setBits (2 * n) = setBits n := by
  rcases Nat.eq_zero_or_pos n with hz | hp
  · subst hz; rfl
  · obtain ⟨m, hm⟩ : ∃ m, 2 * n = m + 1 := ⟨2 * n - 1, by omega⟩
    unfold setBits
    rw [hm]
    simp only [setBitsF, if_neg (by omega : ¬ m + 1 = 0)]
    have he : (m + 1) % 2 = 0 := by omega
    have hd : (m + 1) / 2 = n := by omega
    simp only [he, hd, Nat.zero_add]
    exact setBitsF_fuel m n n (by omega) (by omega)

theorem setBits_double_add_one {n : Nat} : setBits (2 * n + 1) = setBits n + 1 := by
  unfold setBits
  simp only [setBitsF]
  have he : (2 * n + 1) % 2 = 1 := by omega
  have hd : (2 * n + 1) / 2 = n := by omega
  simp only [hd, if_neg (by omega : ¬ 2 * n + 1 = 0), he]
  rw [setBitsF_fuel (2 * n) n n (by omega) (by omega)]
  omega

theorem setBits_16mul {n : Nat} : setBits (16 * n) = setBits n := by
  have e1 : (16 : Nat) * n = 2 * (2 * (2 * (2 * n))) := by ring
  rw [e1, setBits_double, setBits_double, setBits_double, setBits_double]

theorem setBits_16mul_add_15 {n : Nat} : setBits (16 * n + 15) = setBits n + 4 := by
  have e1 : (16 : Nat) * n + 15 = 2 * (2 * (2 * (2 * n + 1) + 1) + 1) + 1 := by ring
  rw [e1, setBits_double_add_one, setBits_double_add_one, setBits_double_add_one,
    setBits_double_add_one]

/-! ## The NEON mask construction (`Mask` in `src/irc/simd/arm_neon.rs`)

`Mask::eq(a, b)` compares two 16-byte vectors with `vceqq_u8` (every lane
becomes `0xFF` on equality, `0x00` otherwise), reinterprets the result as
eight little-endian 16-bit lanes, applies `vshrn_n_u16 _ 4` (shift each
lane right by 4 and narrow to its low 8 bits) and reads the eight result
bytes as one little-endian `u64`. -/

/-- `vceqq_u8`: lanewise byte equality, `0xFF` on equal lanes. -/
def vceqq_u8 (a b : List Nat) : List Nat :=
  List.zipWith (fun x y => if x = y then 255 else 0) a b

/-- `vreinterpretq_u16_u8` on a little-endian byte list: consecutive byte
pairs become 16-bit lanes. -/
def u16_lanes : List Nat → List Nat
  | a :: b :: rest => (a + 256 * b) :: u16_lanes rest
  | _ => []

/-- `vshrn_n_u16 _ 4`: shift every 16-bit lane right by 4, narrow to u8. -/
def vshrn4 (l : List Nat) : List Nat := l.map (fun v => v / 16 % 256)

/-- `vreinterpret_u64_u8` + `vget_lane_u64 _ 0`: read bytes as one
little-endian integer. -/
def le_u64 : List Nat → Nat
  | [] => 0
  | b :: rest => b + 256 * le_u64 rest

/-- `struct Mask(u64)`. -/
structure Mask where
  mask : Nat
deriving DecidableEq

/-- `Mask::eq` from `arm_neon.rs`. -/
def Mask.eq (a b : List Nat) : Mask :=
  ⟨le_u64 (vshrn4 (u16_lanes (vceqq_u8 a b)))⟩

/-- `Mask::has_match`: the mask is not empty. -/
def Mask.has_match (m : Mask) : Bool := m.mask ≠ 0

/-- `Mask::first_match_index`: trailing zeros divided by 4. -/
def Mask.first_match_index (m : Mask) : Nat := ctz m.mask >>> 2

/-- Nibble-sum view of the NEON mask: each matching byte position `i`
contributes the four set bits `15 * 16 ^ i`. -/
def nibble_mask : List Nat → List Nat → Nat
  | a :: as', b :: bs => (if a = b then 15 else 0) + 16 * nibble_mask as' bs
  | _, _ => 0

theorem mask_eq_nibble : ∀ (a b : List Nat), a.length = b.length →
    a.length % 2 = 0 → (Mask.eq a b).mask = nibble_mask a b
  | [], [], _, _ => rfl
  | [], _ :: _, h, _ => by simp at h
  | _ :: _, [], h, _ => by simp at h
  | [_], _ :: _, h, he => by simp at he
  | _ :: _ :: _, [_], h, he => by simp at h
  | a1 :: a2 :: as', b1 :: b2 :: bs, h, he => by
    have h' : as'.length = bs.length := by simpa using h
    have he' : as'.length % 2 = 0 := by
      simp only [List.length_cons] at he; omega
    have ih := mask_eq_nibble as' bs h' he'
    simp only [Mask.eq, vceqq_u8, vshrn4] at ih ⊢
    simp only [List.zipWith_cons_cons, u16_lanes, List.map_cons, le_u64, nibble_mask]
    rw [ih]
    by_cases h1 : a1 = b1 <;> by_cases h2 : a2 = b2 <;> simp [h1, h2] <;> ring

/-- Mask against a splatted single byte (`transmute([c; 16])`). -/
def char_mask : List Nat → Nat → Nat
  | [], _ => 0
  | x :: xs, c => (if x = c then 15 else 0) + 16 * char_mask xs c

theorem nibble_mask_replicate : ∀ (l : List Nat) (n : Nat) (c : Nat),
    l.length = n → nibble_mask l (List.replicate n c) = char_mask l c
  | [], _, c, h => by
    simp only [← h, List.replicate]
    rfl
  | x :: xs, n, c, h => by
    match n, h with
    | n + 1, h =>
      simp only [List.replicate, nibble_mask, char_mask]
      rw [nibble_mask_replicate xs n c (by simpa using h)]

/-- Leftmost index of the byte `c` in `l` (the scalar contract of the
byte-scan primitives). -/
def findChar : List Nat → Nat → Option Nat
  | [], _ => none
  | x :: xs, c => if x = c then some 0 else (findChar xs c).map (· + 1)

theorem char_mask_eq_zero_iff (l : List Nat) (c : Nat) :
    char_mask l c = 0 ↔ findChar l c = none := by
  induction l with
  | nil => simp [char_mask, findChar]
  | cons x xs ih =>
    simp only [char_mask, findChar]
    by_cases h : x = c
    · simp [h]
    · simp only [h, if_neg h, if_false]
      constructor
      · intro hz
        have : char_mask xs c = 0 := by omega
        simp [ih.mp this]
      · intro hn
        rcases Option.map_eq_none'.mp hn with hn'
        have := ih.mpr hn'
        omega

theorem char_mask_ctz (l : List Nat) (c : Nat) :
    ∀ k, findChar l c = some k → ctz (char_mask l c) = 4 * k := by
  induction l with
  | nil => intro k h; simp [findChar] at h
  | cons x xs ih =>
    intro k h
    simp only [findChar] at h
    by_cases hx : x = c
    · simp only [hx, if_pos rfl] at h
      cases h
      simp only [char_mask, if_pos hx]
      have : (15 + 16 * char_mask xs c) % 2 = 1 := by omega
      rw [ctz_odd this]
    · simp only [if_neg hx] at h
      rcases Option.map_eq_some'.mp h with ⟨k', hk', rfl⟩
      have hm : char_mask xs c ≠ 0 := by
        intro hz
        rw [(char_mask_eq_zero_iff xs c).mp hz] at hk'
        exact Option.noConfusion hk'
      simp only [char_mask, if_neg hx, Nat.zero_add]
      rw [ctz_16mul hm, ih k' hk']
      ring

theorem findChar_eq_some_iff : ∀ (l : List Nat) (c i : Nat),
    findChar l c = some i ↔
      i < l.length ∧ l.getD i 0 = c ∧ ∀ j, j < i → l.getD j 0 ≠ c := by
  intro l c
  induction l with
  | nil => intro i; simp [findChar]
  | cons x xs ih =>
    intro i
    simp only [findChar]
    by_cases hx : x = c
    · subst hx
      simp only [if_pos rfl]
      constructor
      · intro h
        obtain rfl : 0 = i := Option.some.inj h
        exact ⟨by simp, by simp, by omega⟩
      · rintro ⟨h1, h2, h3⟩
        rcases i with _ | i
        · rfl
        · exact absurd (show (x :: xs).getD 0 0 = x by simp) (h3 0 (by omega))
    · simp only [if_neg hx]
      constructor
      · intro h
        rcases Option.map_eq_some'.mp h with ⟨i', hi', rfl⟩
        rcases (ih i').mp hi' with ⟨h1, h2, h3⟩
        refine ⟨by simp; omega, by simpa using h2, ?_⟩
        intro j hj
        rcases j with _ | j
        · simpa using hx
        · simpa using h3 j (by omega)
      · rintro ⟨h1, h2, h3⟩
        rcases i with _ | i
        · simp at h2; exact absurd h2 hx
        · have := (ih i).mpr ⟨by simp at h1; omega, by simpa using h2,
            fun j hj => by simpa using h3 (j + 1) (by omega)⟩
          simp [this]

theorem findChar_eq_none_iff : ∀ (l : List Nat) (c : Nat),
    findChar l c = none ↔ ∀ j, j < l.length → l.getD j 0 ≠ c := by
  intro l c
  induction l with
  | nil => simp [findChar]
  | cons x xs ih =>
    simp only [findChar]
    by_cases hx : x = c
    · simp only [hx, if_pos rfl]
      constructor
      · intro h; exact Option.noConfusion h
      · intro h; exact absurd (by simp [hx]) (h 0 (by simp))
    · simp only [if_neg hx]
      constructor
      · intro h j hj
        rcases j with _ | j
        · simpa using hx
        · have := ih.mp (Option.map_eq_none'.mp h)
          simpa using this j (by simpa using hj)
      · intro h
        rw [Option.map_eq_none']
        exact ih.mpr fun j hj => by simpa using h (j + 1) (by simp; omega)

theorem findChar_some_lt {l : List Nat} {c i : Nat} (h : findChar l c = some i) :
    i < l.length :=
  ((findChar_eq_some_iff l c i).mp h).1

theorem findChar_append_some : ∀ (u v : List Nat) (c k : Nat),
    findChar u c = some k → findChar (u ++ v) c = some k := by
  intro u v c
  induction u with
  | nil => intro k h; simp [findChar] at h
  | cons x u ih =>
    intro k h
    simp only [findChar] at h
    simp only [List.cons_append, findChar]
    by_cases hx : x = c
    · simpa [hx] using h
    · simp only [if_neg hx] at h ⊢
      rcases Option.map_eq_some'.mp h with ⟨k', hk', rfl⟩
      show Option.map (fun x => x + 1) (findChar (u ++ v) c) = some (k' + 1)
      rw [ih k' hk']
      rfl

theorem findChar_append_none : ∀ (u v : List Nat) (c : Nat),
    findChar u c = none →
    findChar (u ++ v) c = (findChar v c).map (· + u.length) := by
  intro u v c
  induction u with
  | nil =>
    intro _
    cases h : findChar v c <;> simp [findChar, h]
  | cons x u ih =>
    intro h
    simp only [findChar] at h
    simp only [List.cons_append, findChar]
    by_cases hx : x = c
    · simp [hx] at h
    · simp only [if_neg hx] at h ⊢
      show Option.map (fun x => x + 1) (findChar (u ++ v) c)
        = Option.map (· + (x :: u).length) (findChar v c)
      rw [ih (Option.map_eq_none'.mp h)]
      cases h2 : findChar v c with
      | some k => simp [List.length_cons]; omega
      | none => simp

theorem findChar_replicate_zero : ∀ (m c : Nat), c ≠ 0 →
    findChar (List.replicate m 0) c = none := by
  intro m c hc
  induction m with
  | zero => simp [List.replicate, findChar]
  | succ m ih => simpa [List.replicate, findChar, Ne.symm hc] using ih

theorem findChar_pad (l : List Nat) (m c : Nat) (hc : c ≠ 0) :
    findChar (l ++ List.replicate m 0) c = findChar l c := by
  cases h : findChar l c with
  | some k => exact findChar_append_some l _ c k h
  | none =>
    rw [findChar_append_none l _ c h, findChar_replicate_zero m c hc]
    rfl

/-- `Found` from `arm_neon.rs`: which of `;`/` ` was found, and where. -/
inductive Found where
  | semi (i : Nat)
  | space (i : Nat)
deriving DecidableEq

/-- `impl Add<usize> for Found`. -/
def Found.add : Found → Nat → Found
  | .semi v, rhs => .semi (v + rhs)
  | .space v, rhs => .space (v + rhs)

theorem Found.add_zero (f : Found) : f.add 0 = f := by cases f <;> simp [Found.add]

theorem Found.add_add (f : Found) (a b : Nat) : (f.add a).add b = f.add (b + a) := by
  cases f <;> simp [Found.add] <;> omega

/-- Modelled from the spec: the scalar fallback of `find_semi_or_space`
(`src/irc/scalar.rs` is not part of the sources), a straight byte loop
returning the leftmost `;` (59) or ` ` (32). -/
def scalar_find_semi_or_space : List Nat → Option Found
  | [] => none
  | x :: xs =>
    if x = 59 then some (.semi 0)
    else if x = 32 then some (.space 0)
    else (scalar_find_semi_or_space xs).map (Found.add · 1)

/-- Modelled from the spec: the scalar fallback of `find_equals`, a straight
byte loop returning the leftmost `=` (61). -/
def scalar_find_equals (s : List Nat) : Option Nat := findChar s 61

/-- Combination of the two single-character scans that
`find_semi_or_space` computes: whichever index is leftward. -/
def combineSS : Option Nat → Option Nat → Option Found
  | some s, some p => if s < p then some (.semi s) else some (.space p)
  | some s, none => some (.semi s)
  | none, some p => some (.space p)
  | none, none => none

theorem scalar_find_semi_or_space_eq_combine : ∀ l : List Nat,
    scalar_find_semi_or_space l = combineSS (findChar l 59) (findChar l 32) := by
  intro l
  induction l with
  | nil => simp [scalar_find_semi_or_space, findChar, combineSS]
  | cons x xs ih =>
    simp only [scalar_find_semi_or_space, findChar]
    by_cases h59 : x = 59
    · have h32 : ¬ x = 32 := by omega
      simp only [if_pos h59, if_neg h32, if_pos rfl]
      cases h : findChar xs 32 with
      | some p => simp [h59, combineSS]
      | none => simp [h59, combineSS]
    · by_cases h32 : x = 32
      · have : ¬ x = 59 := by omega
        simp only [if_neg h59, if_pos h32, if_pos rfl]
        cases h : findChar xs 59 with
        | some s => simp [combineSS]
        | none => simp [combineSS]
      · simp only [if_neg h59, if_neg h32, ih]
        cases h1 : findChar xs 59 with
        | none =>
          cases h2 : findChar xs 32 with
          | none => rfl
          | some p => simp [combineSS, Found.add]
        | some s =>
          cases h2 : findChar xs 32 with
          | none => simp [combineSS, Found.add]
          | some p =>
            by_cases hsp : s < p
            · simp [combineSS, if_pos hsp, if_pos (show s + 1 < p + 1 by omega),
                Found.add]
            · simp [combineSS, if_neg hsp, if_neg (show ¬ s + 1 < p + 1 by omega),
                Found.add]

theorem sss_append_some : ∀ (u v : List Nat) (f : Found),
    scalar_find_semi_or_space u = some f →
    scalar_find_semi_or_space (u ++ v) = some f := by
  intro u v
  induction u with
  | nil => intro f h; simp [scalar_find_semi_or_space] at h
  | cons x u ih =>
    intro f h
    simp only [scalar_find_semi_or_space] at h
    simp only [List.cons_append, scalar_find_semi_or_space]
    by_cases h59 : x = 59
    · simpa [h59] using h
    · by_cases h32 : x = 32
      · simp only [if_neg h59, if_pos h32] at h ⊢
        exact h
      · simp only [if_neg h59, if_neg h32] at h ⊢
        rcases Option.map_eq_some'.mp h with ⟨f', hf', rfl⟩
        show Option.map (Found.add · 1) (scalar_find_semi_or_space (u ++ v))
          = some (f'.add 1)
        rw [ih f' hf']
        rfl

theorem sss_append_none : ∀ (u v : List Nat),
    scalar_find_semi_or_space u = none →
    scalar_find_semi_or_space (u ++ v)
      = (scalar_find_semi_or_space v).map (Found.add · u.length) := by
  intro u v
  induction u with
  | nil =>
    intro _
    cases h : scalar_find_semi_or_space v <;> simp [h, Found.add_zero]
  | cons x u ih =>
    intro h
    simp only [scalar_find_semi_or_space] at h
    simp only [List.cons_append, scalar_find_semi_or_space]
    by_cases h59 : x = 59
    · simp [h59] at h
    · by_cases h32 : x = 32
      · simp only [if_neg h59, if_pos h32] at h
        exact Option.noConfusion h
      · simp only [if_neg h59, if_neg h32] at h ⊢
        show Option.map (Found.add · 1) (scalar_find_semi_or_space (u ++ v))
          = (scalar_find_semi_or_space v).map (Found.add · (x :: u).length)
        rw [ih (Option.map_eq_none'.mp h)]
        cases h2 : scalar_find_semi_or_space v with
        | some f =>
          cases f <;> simp [Found.add, List.length_cons] <;> omega
        | none => simp

theorem sss_replicate_zero : ∀ m : Nat,
    scalar_find_semi_or_space (List.replicate m 0) = none := by
  intro m
  induction m with
  | zero => rfl
  | succ m ih => simpa [List.replicate, scalar_find_semi_or_space] using ih

theorem sss_pad (l : List Nat) (m : Nat) :
    scalar_find_semi_or_space (l ++ List.replicate m 0)
      = scalar_find_semi_or_space l := by
  cases h : scalar_find_semi_or_space l with
  | some f => exact sss_append_some l _ f h
  | none => rw [sss_append_none l _ h, sss_replicate_zero m]; rfl

/-! ## The 16-byte chunked loop (`chunk16_test` in `arm_neon.rs`)

The Rust loop walks full 16-byte chunks from the front, then loads the
remaining tail bytes into a zero-filled 16-byte buffer.  `shift` is the
`T: Add<usize>` instance used for `pos + i`.  The structural fuel is set by
the wrapper to more than the number of chunks, so it never runs out. -/

def chunk16A {T : Type} (shift : T → Nat → T) (test : List Nat → Option T) :
    Nat → List Nat → Nat → Option T
  | 0, _, _ => none
  | f + 1, s, i =>
    if 16 ≤ s.length then
      match test (s.take 16) with
      | some r => some (shift r i)
      | none => chunk16A shift test f (s.drop 16) (i + 16)
    else if s.length = 0 then none
    else
      match test (s ++ List.replicate (16 - s.length) 0) with
      | some r => some (shift r i)
      | none => none

/-- `chunk16_test` from `arm_neon.rs`. -/
def chunk16_test {T : Type} (shift : T → Nat → T) (test : List Nat → Option T)
    (s : List Nat) : Option T :=
  chunk16A shift test (s.length + 1) s 0

theorem chunk16A_correct {T : Type} (shift : T → Nat → T)
    (test : List Nat → Option T) (spec : List Nat → Option T)
    (hchunk : ∀ d, d.length = 16 → test d = spec d)
    (hpad : ∀ (d : List Nat) (m : Nat), d ≠ [] →
      spec (d ++ List.replicate m 0) = spec d)
    (hsome : ∀ u v r, spec u = some r → spec (u ++ v) = some r)
    (hnone : ∀ u v, spec u = none →
      spec (u ++ v) = (spec v).map (fun r => shift r u.length))
    (hnil : spec [] = none)
    (hcomp : ∀ r a b, shift (shift r a) b = shift r (b + a)) :
    ∀ f s i, s.length < 16 * f →
      chunk16A shift test f s i = (spec s).map (fun r => shift r i) := by
  intro f
  induction f with
  | zero => intro s i h; omega
  | succ f ih =>
    intro s i h
    simp only [chunk16A]
    by_cases h16 : 16 ≤ s.length
    · have hlen : (s.take 16).length = 16 := by
        simp [List.length_take]; omega
      rw [if_pos h16, hchunk _ hlen]
      have hsplit : s = s.take 16 ++ s.drop 16 := (List.take_append_drop 16 s).symm
      cases hspec : spec (s.take 16) with
      | some r =>
        have hs : spec s = some r := by
          conv_lhs => rw [hsplit]
          exact hsome _ _ r hspec
        simp [hs]
      | none =>
        have hdrop : (s.drop 16).length < 16 * f := by
          simp [List.length_drop]; omega
        rw [ih (s.drop 16) (i + 16) hdrop]
        have hs : spec s = (spec (s.drop 16)).map (fun r => shift r 16) := by
          conv_lhs => rw [hsplit]
          rw [hnone _ _ hspec, hlen]
        rw [hs]
        cases spec (s.drop 16) <;> simp [hcomp]
    · rw [if_neg h16]
      by_cases h0 : s.length = 0
      · have hs : s = [] := List.eq_nil_of_length_eq_zero h0
        simp [h0, hs, hnil]
      · have hne : s ≠ [] := by
          intro hh; subst hh; simp at h0
        have hlen : (s ++ List.replicate (16 - s.length) 0).length = 16 := by
          simp [List.length_append, List.length_replicate]; omega
        rw [if_neg h0, hchunk _ hlen, hpad s _ hne]
        cases hs : spec s <;> simp

theorem chunk16_test_correct {T : Type} (shift : T → Nat → T)
    (test : List Nat → Option T) (spec : List Nat → Option T)
    (hchunk : ∀ d, d.length = 16 → test d = spec d)
    (hpad : ∀ (d : List Nat) (m : Nat), d ≠ [] →
      spec (d ++ List.replicate m 0) = spec d)
    (hsome : ∀ u v r, spec u = some r → spec (u ++ v) = some r)
    (hnone : ∀ u v, spec u = none →
      spec (u ++ v) = (spec v).map (fun r => shift r u.length))
    (hnil : spec [] = none)
    (hcomp : ∀ r a b, shift (shift r a) b = shift r (b + a))
    (hzero : ∀ r, shift r 0 = r) (s : List Nat) :
    chunk16_test shift test s = spec s := by
  rw [chunk16_test,
    chunk16A_correct shift test spec hchunk hpad hsome hnone hnil hcomp
      (s.length + 1) s 0 (by omega)]
  cases spec s <;> simp [hzero]

/-- The per-chunk test of `find_equals`: compare against a splatted `=`. -/
def equals_test (data : List Nat) : Option Nat :=
  let mask := Mask.eq data (List.replicate 16 61)
  if mask.has_match then some mask.first_match_index else none

/-- `find_equals` from `arm_neon.rs`: first `=` in `s`, via the NEON mask. -/
def find_equals (s : List Nat) : Option Nat :=
  chunk16_test (fun r i => r + i) equals_test s

/-- The per-chunk test of `find_semi_or_space`: two compares, earlier index
wins, `Semi` preferred when both masks match at the same time only via the
explicit `<` comparison. -/
def semi_or_space_test (data : List Nat) : Option Found :=
  let semi_mask := Mask.eq data (List.replicate 16 59)
  let space_mask := Mask.eq data (List.replicate 16 32)
  match semi_mask.has_match, space_mask.has_match with
  | true, true =>
    let semi := semi_mask.first_match_index
    let space := space_mask.first_match_index
    if semi < space then some (.semi semi) else some (.space space)
  | true, false => some (.semi semi_mask.first_match_index)
  | false, true => some (.space space_mask.first_match_index)
  | false, false => none

/-- `find_semi_or_space` from `arm_neon.rs`. -/
def find_semi_or_space (s : List Nat) : Option Found :=
  chunk16_test Found.add semi_or_space_test s

theorem mask_eq_char_mask (d : List Nat) (c : Nat) (h : d.length = 16) :
    (Mask.eq d (List.replicate 16 c)).mask = char_mask d c := by
  rw [mask_eq_nibble d _ (by simp [h]) (by simp [h])]
  exact nibble_mask_replicate d 16 c h

theorem char_mask_ne_zero {d : List Nat} {c k : Nat}
    (h : findChar d c = some k) : char_mask d c ≠ 0 := by
  intro hz
  rw [(char_mask_eq_zero_iff d c).mp hz] at h
  exact Option.noConfusion h

theorem equals_test_eq (d : List Nat) (h : d.length = 16) :
    equals_test d = findChar d 61 := by
  have hm := mask_eq_char_mask d 61 h
  show (if (Mask.eq d (List.replicate 16 61)).has_match
      then some (Mask.eq d (List.replicate 16 61)).first_match_index else none)
    = findChar d 61
  rw [Mask.has_match, Mask.first_match_index, hm]
  cases hf : findChar d 61 with
  | none =>
    have hz : char_mask d 61 = 0 := (char_mask_eq_zero_iff d 61).mpr hf
    rw [hz]
    simp
  | some k =>
    have hnz := char_mask_ne_zero hf
    rw [char_mask_ctz d 61 k hf, if_pos (by simp [hnz])]
    congr 1
    rw [Nat.shiftRight_eq_div_pow]
    omega

theorem semi_or_space_test_eq (d : List Nat) (h : d.length = 16) :
    semi_or_space_test d = scalar_find_semi_or_space d := by
  have hm59 := mask_eq_char_mask d 59 h
  have hm32 := mask_eq_char_mask d 32 h
  rw [scalar_find_semi_or_space_eq_combine]
  simp only [semi_or_space_test, Mask.has_match, Mask.first_match_index]
  rw [hm59, hm32]
  cases hf1 : findChar d 59 with
  | none =>
    rw [(char_mask_eq_zero_iff d 59).mpr hf1]
    cases hf2 : findChar d 32 with
    | none =>
      rw [(char_mask_eq_zero_iff d 32).mpr hf2]
      simp [combineSS]
    | some p =>
      have nz32 := char_mask_ne_zero hf2
      rw [char_mask_ctz d 32 p hf2]
      have hp : (4 * p) >>> 2 = p := by rw [Nat.shiftRight_eq_div_pow]; omega
      simp [combineSS, nz32, hp]
  | some s =>
    have nz59 := char_mask_ne_zero hf1
    rw [char_mask_ctz d 59 s hf1]
    have hs : (4 * s) >>> 2 = s := by rw [Nat.shiftRight_eq_div_pow]; omega
    cases hf2 : findChar d 32 with
    | none =>
      rw [(char_mask_eq_zero_iff d 32).mpr hf2]
      simp [combineSS, nz59, hs]
    | some p =>
      have nz32 := char_mask_ne_zero hf2
      rw [char_mask_ctz d 32 p hf2]
      have hp : (4 * p) >>> 2 = p := by rw [Nat.shiftRight_eq_div_pow]; omega
      by_cases hsp : s < p <;> simp [combineSS, nz59, nz32, hs, hp, hsp]

theorem find_equals_eq (s : List Nat) : find_equals s = findChar s 61 :=
  chunk16_test_correct (fun r i => r + i) equals_test (fun l => findChar l 61)
    equals_test_eq
    (fun d m _ => findChar_pad d m 61 (by omega))
    (fun u v r hr => findChar_append_some u v 61 r hr)
    (fun u v hn => findChar_append_none u v 61 hn)
    rfl
    (fun r a b => by show r + a + b = r + (b + a); omega)
    (fun r => rfl)
    s

theorem find_semi_or_space_eq (s : List Nat) :
    find_semi_or_space s = scalar_find_semi_or_space s :=
  chunk16_test_correct Found.add semi_or_space_test scalar_find_semi_or_space
    semi_or_space_test_eq
    (fun d m _ => sss_pad d m)
    sss_append_some
    sss_append_none
    rfl
    Found.add_add
    Found.add_zero
    s

/-! ## The x86 SSE2 implementation, modelled from the spec

`src/irc/simd/x86_sse.rs` is referenced by `src/irc/simd.rs` but is not
among the sources.  Per the spec it compares a 16-byte chunk with `cmpeq`
against a splatted byte, extracts a 16-bit `movemask` (one bit per byte),
and takes count-trailing-zeros of that mask, over the same
full-chunks-then-zero-padded-tail loop. -/

/-- Modelled from the spec: the SSE2 `cmpeq` + `movemask` bit mask, one bit
per matching byte. -/
def bit_mask : List Nat → Nat → Nat
  | [], _ => 0
  | x :: xs, c => (if x = c then 1 else 0) + 2 * bit_mask xs c

theorem bit_mask_eq_zero_iff (l : List Nat) (c : Nat) :
    bit_mask l c = 0 ↔ findChar l c = none := by
  induction l with
  | nil => simp [bit_mask, findChar]
  | cons x xs ih =>
    simp only [bit_mask, findChar]
    by_cases h : x = c
    · simp [h]
    · simp only [h, if_neg h, if_false]
      constructor
      · intro hz
        have : bit_mask xs c = 0 := by omega
        simp [ih.mp this]
      · intro hn
        rcases Option.map_eq_none'.mp hn with hn'
        have := ih.mpr hn'
        omega

theorem bit_mask_ctz (l : List Nat) (c : Nat) :
    ∀ k, findChar l c = some k → ctz (bit_mask l c) = k := by
  induction l with
  | nil => intro k h; simp [findChar] at h
  | cons x xs ih =>
    intro k h
    simp only [findChar] at h
    by_cases hx : x = c
    · simp only [hx, if_pos rfl] at h
      cases h
      simp only [bit_mask, if_pos hx]
      have : (1 + 2 * bit_mask xs c) % 2 = 1 := by omega
      rw [ctz_odd this]
    · simp only [if_neg hx] at h
      rcases Option.map_eq_some'.mp h with ⟨k', hk', rfl⟩
      have hm : bit_mask xs c ≠ 0 := by
        intro hz
        rw [(bit_mask_eq_zero_iff xs c).mp hz] at hk'
        exact Option.noConfusion hk'
      simp only [bit_mask, if_neg hx, Nat.zero_add]
      rw [ctz_double hm, ih k' hk']

/-- Modelled from the spec: the per-chunk SSE2 test of `find_equals`. -/
def sse_equals_test (data : List Nat) : Option Nat :=
  let mask := bit_mask data 61
  if mask ≠ 0 then some (ctz mask) else none

/-- Modelled from the spec: the SSE2 `find_equals` of `x86_sse.rs`. -/
def sse_find_equals (s : List Nat) : Option Nat :=
  chunk16_test (fun r i => r + i) sse_equals_test s

/-- Modelled from the spec: the per-chunk SSE2 test of `find_semi_or_space`,
two compares, the leftward index wins. -/
def sse_semi_or_space_test (data : List Nat) : Option Found :=
  let semi_mask := bit_mask data 59
  let space_mask := bit_mask data 32
  if semi_mask ≠ 0 then
    if space_mask ≠ 0 then
      if ctz semi_mask < ctz space_mask then some (.semi (ctz semi_mask))
      else some (.space (ctz space_mask))
    else some (.semi (ctz semi_mask))
  else if space_mask ≠ 0 then some (.space (ctz space_mask))
  else none

/-- Modelled from the spec: the SSE2 `find_semi_or_space` of `x86_sse.rs`. -/
def sse_find_semi_or_space (s : List Nat) : Option Found :=
  chunk16_test Found.add sse_semi_or_space_test s

theorem sse_equals_test_eq (d : List Nat) (_ : d.length = 16) :
    sse_equals_test d = findChar d 61 := by
  show (if bit_mask d 61 ≠ 0 then some (ctz (bit_mask d 61)) else none)
    = findChar d 61
  cases hf : findChar d 61 with
  | none =>
    rw [(bit_mask_eq_zero_iff d 61).mpr hf]
    simp
  | some k =>
    have hnz : bit_mask d 61 ≠ 0 := by
      intro hz
      rw [(bit_mask_eq_zero_iff d 61).mp hz] at hf
      exact Option.noConfusion hf
    rw [if_pos hnz, bit_mask_ctz d 61 k hf]

theorem sse_semi_or_space_test_eq (d : List Nat) (_ : d.length = 16) :
    sse_semi_or_space_test d = scalar_find_semi_or_space d := by
  rw [scalar_find_semi_or_space_eq_combine]
  show (if bit_mask d 59 ≠ 0 then
      if bit_mask d 32 ≠ 0 then
        if ctz (bit_mask d 59) < ctz (bit_mask d 32)
        then some (.semi (ctz (bit_mask d 59)))
        else some (.space (ctz (bit_mask d 32)))
      else some (.semi (ctz (bit_mask d 59)))
    else if bit_mask d 32 ≠ 0 then some (.space (ctz (bit_mask d 32)))
    else none) = combineSS (findChar d 59) (findChar d 32)
  cases hf1 : findChar d 59 with
  | none =>
    rw [(bit_mask_eq_zero_iff d 59).mpr hf1]
    cases hf2 : findChar d 32 with
    | none =>
      rw [(bit_mask_eq_zero_iff d 32).mpr hf2]
      simp [combineSS]
    | some p =>
      have nz32 : bit_mask d 32 ≠ 0 := by
        intro hz; rw [(bit_mask_eq_zero_iff d 32).mp hz] at hf2
        exact Option.noConfusion hf2
      rw [bit_mask_ctz d 32 p hf2]
      simp [combineSS, nz32]
  | some s =>
    have nz59 : bit_mask d 59 ≠ 0 := by
      intro hz; rw [(bit_mask_eq_zero_iff d 59).mp hz] at hf1
      exact Option.noConfusion hf1
    rw [bit_mask_ctz d 59 s hf1]
    cases hf2 : findChar d 32 with
    | none =>
      rw [(bit_mask_eq_zero_iff d 32).mpr hf2]
      simp [combineSS, nz59]
    | some p =>
      have nz32 : bit_mask d 32 ≠ 0 := by
        intro hz; rw [(bit_mask_eq_zero_iff d 32).mp hz] at hf2
        exact Option.noConfusion hf2
      rw [bit_mask_ctz d 32 p hf2]
      by_cases hsp : s < p <;> simp [combineSS, nz59, nz32, hsp]

theorem sse_find_equals_eq (s : List Nat) : sse_find_equals s = findChar s 61 :=
  chunk16_test_correct (fun r i => r + i) sse_equals_test (fun l => findChar l 61)
    sse_equals_test_eq
    (fun d m _ => findChar_pad d m 61 (by omega))
    (fun u v r hr => findChar_append_some u v 61 r hr)
    (fun u v hn => findChar_append_none u v 61 hn)
    rfl
    (fun r a b => by show r + a + b = r + (b + a); omega)
    (fun r => rfl)
    s

theorem sse_find_semi_or_space_eq (s : List Nat) :
    sse_find_semi_or_space s = scalar_find_semi_or_space s :=
  chunk16_test_correct Found.add sse_semi_or_space_test scalar_find_semi_or_space
    sse_semi_or_space_test_eq
    (fun d m _ => sss_pad d m)
    sss_append_some
    sss_append_none
    rfl
    Found.add_add
    Found.add_zero
    s

theorem combineSS_none_iff (a b : Option Nat) :
    combineSS a b = none ↔ a = none ∧ b = none := by
  cases a <;> cases b <;> simp [combineSS]
  split <;> simp

theorem sss_none_iff (s : List Nat) :
    scalar_find_semi_or_space s = none ↔
      ∀ j, j < s.length → s.getD j 0 ≠ 59 ∧ s.getD j 0 ≠ 32 := by
  rw [scalar_find_semi_or_space_eq_combine, combineSS_none_iff]
  rw [findChar_eq_none_iff, findChar_eq_none_iff]
  constructor
  · rintro ⟨h1, h2⟩ j hj
    exact ⟨h1 j hj, h2 j hj⟩
  · intro h
    exact ⟨fun j hj => (h j hj).1, fun j hj => (h j hj).2⟩

theorem sss_semi_iff (s : List Nat) (i : Nat) :
    scalar_find_semi_or_space s = some (.semi i) ↔
      i < s.length ∧ s.getD i 0 = 59 ∧
        ∀ j, j < i → s.getD j 0 ≠ 59 ∧ s.getD j 0 ≠ 32 := by
  rw [scalar_find_semi_or_space_eq_combine]
  constructor
  · intro h
    cases hf1 : findChar s 59 with
    | none =>
      rw [hf1] at h
      cases hf2 : findChar s 32 <;> rw [hf2] at h <;> simp [combineSS] at h
    | some a =>
      rcases (findChar_eq_some_iff s 59 a).mp hf1 with ⟨ha1, ha2, ha3⟩
      cases hf2 : findChar s 32 with
      | none =>
        rw [hf1, hf2] at h
        simp only [combineSS, Option.some.injEq, Found.semi.injEq] at h
        subst h
        refine ⟨ha1, ha2, fun j hj => ⟨ha3 j hj, ?_⟩⟩
        exact (findChar_eq_none_iff s 32).mp hf2 j (by omega)
      | some b =>
        rw [hf1, hf2] at h
        rcases (findChar_eq_some_iff s 32 b).mp hf2 with ⟨hb1, hb2, hb3⟩
        by_cases hab : a < b
        · simp only [combineSS, if_pos hab, Option.some.injEq,
            Found.semi.injEq] at h
          subst h
          exact ⟨ha1, ha2, fun j hj => ⟨ha3 j hj, hb3 j (by omega)⟩⟩
        · simp [combineSS, if_neg hab] at h
  · rintro ⟨h1, h2, h3⟩
    have hf1 : findChar s 59 = some i :=
      (findChar_eq_some_iff s 59 i).mpr ⟨h1, h2, fun j hj => (h3 j hj).1⟩
    rw [hf1]
    cases hf2 : findChar s 32 with
    | none => simp [combineSS]
    | some b =>
      rcases (findChar_eq_some_iff s 32 b).mp hf2 with ⟨hb1, hb2, hb3⟩
      have hib : i < b := by
        rcases Nat.lt_trichotomy i b with hlt | heq | hgt
        · exact hlt
        · subst heq; rw [h2] at hb2; omega
        · exact absurd hb2 (h3 b hgt).2
      simp [combineSS, hib]

theorem sss_space_iff (s : List Nat) (i : Nat) :
    scalar_find_semi_or_space s = some (.space i) ↔
      i < s.length ∧ s.getD i 0 = 32 ∧
        ∀ j, j < i → s.getD j 0 ≠ 59 ∧ s.getD j 0 ≠ 32 := by
  rw [scalar_find_semi_or_space_eq_combine]
  constructor
  · intro h
    cases hf2 : findChar s 32 with
    | none =>
      rw [hf2] at h
      cases hf1 : findChar s 59 <;> rw [hf1] at h <;> simp [combineSS] at h
    | some b =>
      rcases (findChar_eq_some_iff s 32 b).mp hf2 with ⟨hb1, hb2, hb3⟩
      cases hf1 : findChar s 59 with
      | none =>
        rw [hf1, hf2] at h
        simp only [combineSS, Option.some.injEq, Found.space.injEq] at h
        subst h
        refine ⟨hb1, hb2, fun j hj => ⟨?_, hb3 j hj⟩⟩
        exact (findChar_eq_none_iff s 59).mp hf1 j (by omega)
      | some a =>
        rw [hf1, hf2] at h
        rcases (findChar_eq_some_iff s 59 a).mp hf1 with ⟨ha1, ha2, ha3⟩
        by_cases hab : a < b
        · simp [combineSS, if_pos hab] at h
        · simp only [combineSS, if_neg hab, Option.some.injEq,
            Found.space.injEq] at h
          subst h
          refine ⟨hb1, hb2, fun j hj => ⟨ha3 j (by omega), hb3 j hj⟩⟩
  · rintro ⟨h1, h2, h3⟩
    have hf2 : findChar s 32 = some i :=
      (findChar_eq_some_iff s 32 i).mpr ⟨h1, h2, fun j hj => (h3 j hj).2⟩
    rw [hf2]
    cases hf1 : findChar s 59 with
    | none => simp [combineSS]
    | some a =>
      rcases (findChar_eq_some_iff s 59 a).mp hf1 with ⟨ha1, ha2, ha3⟩
      have hia : i < a := by
        rcases Nat.lt_trichotomy a i with hlt | heq | hgt
        · exact absurd ha2 (h3 a hlt).1
        · subst heq; rw [h2] at ha2; omega
        · exact hgt
      simp [combineSS, if_neg (by omega : ¬ a < i)]

/-- C2: `find_equals` returns `Some i` exactly when `i` is the leftmost
index of `=` (`None` when absent), and `find_semi_or_space` returns the
leftmost `;` or ` ` tagged with the character found, the earlier of the two
when both occur.  Stated for the full chunked-loop implementations, so it
holds across the 16-byte chunks and the zero-padded tail. -/
theorem c2_find_primitives_leftmost (s : List Nat) (i : Nat) :
    (find_equals s = some i ↔
      i < s.length ∧ s.getD i 0 = 61 ∧ ∀ j, j < i → s.getD j 0 ≠ 61) ∧
    (find_equals s = none ↔ ∀ j, j < s.length → s.getD j 0 ≠ 61) ∧
    (find_semi_or_space s = some (Found.semi i) ↔
      i < s.length ∧ s.getD i 0 = 59 ∧
        ∀ j, j < i → s.getD j 0 ≠ 59 ∧ s.getD j 0 ≠ 32) ∧
    (find_semi_or_space s = some (Found.space i) ↔
      i < s.length ∧ s.getD i 0 = 32 ∧
        ∀ j, j < i → s.getD j 0 ≠ 59 ∧ s.getD j 0 ≠ 32) ∧
    (find_semi_or_space s = none ↔
      ∀ j, j < s.length → s.getD j 0 ≠ 59 ∧ s.getD j 0 ≠ 32) := by
  rw [find_equals_eq, find_semi_or_space_eq]
  exact ⟨findChar_eq_some_iff s 61 i, findChar_eq_none_iff s 61,
    sss_semi_iff s i, sss_space_iff s i, sss_none_iff s⟩

/-- C3: on every input of at most 64 KB the NEON, SSE2 and scalar byte-scan
implementations agree bit-for-bit (they agree on all inputs; the 64 KB
bound of the claim is kept as a hypothesis). -/
theorem c3_impl_parity (s : List Nat) (h : s.length ≤ 65536) :
    find_equals s = sse_find_equals s ∧
    sse_find_equals s = scalar_find_equals s ∧
    find_semi_or_space s = sse_find_semi_or_space s ∧
    sse_find_semi_or_space s = scalar_find_semi_or_space s := by
  refine ⟨?_, ?_, ?_, ?_⟩
  · rw [find_equals_eq, sse_find_equals_eq]
  · rw [sse_find_equals_eq]; rfl
  · rw [find_semi_or_space_eq, sse_find_semi_or_space_eq]
  · rw [sse_find_semi_or_space_eq]

theorem c3_impl_parity_witness :
    ([64, 97, 61, 98, 59, 99, 61, 32] : List Nat).length ≤ 65536 ∧
      (find_equals [64, 97, 61, 98, 59, 99, 61, 32]
          = sse_find_equals [64, 97, 61, 98, 59, 99, 61, 32] ∧
        sse_find_equals [64, 97, 61, 98, 59, 99, 61, 32]
          = scalar_find_equals [64, 97, 61, 98, 59, 99, 61, 32] ∧
        find_semi_or_space [64, 97, 61, 98, 59, 99, 61, 32]
          = sse_find_semi_or_space [64, 97, 61, 98, 59, 99, 61, 32] ∧
        sse_find_semi_or_space [64, 97, 61, 98, 59, 99, 61, 32]
          = scalar_find_semi_or_space [64, 97, 61, 98, 59, 99, 61, 32]) :=
  ⟨by decide, c3_impl_parity [64, 97, 61, 98, 59, 99, 61, 32] (by decide)⟩

/-- Number of positions at which the two byte vectors agree. -/
def count_matches : List Nat → List Nat → Nat
  | a :: as', b :: bs => (if a = b then 1 else 0) + count_matches as' bs
  | _, _ => 0

/-- Index of the first position at which the two byte vectors agree. -/
def first_match : List Nat → List Nat → Option Nat
  | a :: as', b :: bs =>
    if a = b then some 0 else (first_match as' bs).map (· + 1)
  | _, _ => none

theorem nibble_setBits : ∀ (a b : List Nat),
    setBits (nibble_mask a b) = 4 * count_matches a b := by
  intro a
  induction a with
  | nil => intro b; cases b <;> simp [nibble_mask, count_matches, setBits_zero]
  | cons x xs ih =>
    intro b
    cases b with
    | nil => simp [nibble_mask, count_matches, setBits_zero]
    | cons y ys =>
      simp only [nibble_mask, count_matches]
      by_cases h : x = y
      · rw [if_pos h, if_pos h, Nat.add_comm 15 _, setBits_16mul_add_15, ih ys]
        ring
      · rw [if_neg h, if_neg h, Nat.zero_add, setBits_16mul, ih ys]
        ring

theorem nibble_eq_zero_iff : ∀ (a b : List Nat),
    nibble_mask a b = 0 ↔ first_match a b = none := by
  intro a
  induction a with
  | nil => intro b; cases b <;> simp [nibble_mask, first_match]
  | cons x xs ih =>
    intro b
    cases b with
    | nil => simp [nibble_mask, first_match]
    | cons y ys =>
      simp only [nibble_mask, first_match]
      by_cases h : x = y
      · simp [h]
      · simp only [if_neg h]
        constructor
        · intro hz
          have : nibble_mask xs ys = 0 := by omega
          simp [(ih ys).mp this]
        · intro hn
          have := (ih ys).mpr (Option.map_eq_none'.mp hn)
          omega

theorem nibble_ctz : ∀ (a b : List Nat) (k : Nat),
    first_match a b = some k → ctz (nibble_mask a b) = 4 * k := by
  intro a
  induction a with
  | nil => intro b k h; cases b <;> simp [first_match] at h
  | cons x xs ih =>
    intro b k h
    cases b with
    | nil => simp [first_match] at h
    | cons y ys =>
      simp only [first_match] at h
      by_cases hxy : x = y
      · simp only [hxy, if_pos rfl] at h
        cases h
        simp only [nibble_mask, if_pos hxy]
        exact ctz_odd (by omega)
      · simp only [if_neg hxy] at h
        rcases Option.map_eq_some'.mp h with ⟨k', hk', rfl⟩
        have hm : nibble_mask xs ys ≠ 0 := by
          intro hz
          rw [(nibble_eq_zero_iff xs ys).mp hz] at hk'
          exact Option.noConfusion hk'
        simp only [nibble_mask, if_neg hxy, Nat.zero_add]
        rw [ctz_16mul hm, ih ys k' hk']
        ring

theorem first_match_none_iff : ∀ (a b : List Nat),
    first_match a b = none ↔
      ∀ i, i < a.length → i < b.length → a.getD i 0 ≠ b.getD i 0 := by
  intro a
  induction a with
  | nil => intro b; cases b <;> simp [first_match]
  | cons x xs ih =>
    intro b
    cases b with
    | nil => simp [first_match]
    | cons y ys =>
      simp only [first_match]
      by_cases h : x = y
      · simp only [if_pos h]
        constructor
        · intro hc; exact Option.noConfusion hc
        · intro hc
          exact absurd (by simpa using h) (hc 0 (by simp) (by simp))
      · simp only [if_neg h, Option.map_eq_none']
        rw [ih ys]
        constructor
        · intro hc i hi1 hi2
          rcases i with _ | i
          · simpa using h
          · simpa using hc i (by simpa using hi1) (by simpa using hi2)
        · intro hc i hi1 hi2
          simpa using hc (i + 1) (by simp; omega) (by simp; omega)

/-- C9: the NEON mask of two 16-byte vectors is the sum of one nibble
`15 * 16 ^ i` per matching byte position: each matching byte contributes
exactly 4 set bits, the mask is nonzero iff some byte matches, and
`trailing_zeros >> 2` is the index of the first matching byte. -/
theorem c9_mask_nibble_semantics (a b : List Nat)
    (ha : a.length = 16) (hb : b.length = 16) :
    (Mask.eq a b).mask = nibble_mask a b ∧
    setBits (Mask.eq a b).mask = 4 * count_matches a b ∧
    ((Mask.eq a b).has_match = true ↔
      ∃ i, i < 16 ∧ a.getD i 0 = b.getD i 0) ∧
    (∀ k, first_match a b = some k → (Mask.eq a b).first_match_index = k) := by
  have hm : (Mask.eq a b).mask = nibble_mask a b :=
    mask_eq_nibble a b (by omega) (by rw [ha])
  refine ⟨hm, by rw [hm, nibble_setBits], ?_, ?_⟩
  · rw [Mask.has_match, hm]
    rw [decide_eq_true_iff]
    constructor
    · intro hnz
      by_contra hno
      push_neg at hno
      have : first_match a b = none := by
        rw [first_match_none_iff]
        intro i hi1 _
        exact hno i (by omega)
      exact hnz ((nibble_eq_zero_iff a b).mpr this)
    · rintro ⟨i, hi, heq⟩ hz
      have := (first_match_none_iff a b).mp ((nibble_eq_zero_iff a b).mp hz)
      exact this i (by omega) (by omega) heq
  · intro k hk
    rw [Mask.first_match_index, hm, nibble_ctz a b k hk,
      Nat.shiftRight_eq_div_pow]
    omega

theorem c9_mask_nibble_semantics_witness :
    ([59, 0, 1, 2, 3, 4, 5, 6, 7, 8, 9, 10, 11, 12, 13, 32] : List Nat).length = 16 ∧
    ([59, 9, 9, 2, 9, 9, 9, 9, 9, 9, 9, 9, 9, 9, 9, 32] : List Nat).length = 16 ∧
    ((Mask.eq [59, 0, 1, 2, 3, 4, 5, 6, 7, 8, 9, 10, 11, 12, 13, 32]
        [59, 9, 9, 2, 9, 9, 9, 9, 9, 9, 9, 9, 9, 9, 9, 32]).mask
      = nibble_mask [59, 0, 1, 2, 3, 4, 5, 6, 7, 8, 9, 10, 11, 12, 13, 32]
        [59, 9, 9, 2, 9, 9, 9, 9, 9, 9, 9, 9, 9, 9, 9, 32] ∧
    setBits (Mask.eq [59, 0, 1, 2, 3, 4, 5, 6, 7, 8, 9, 10, 11, 12, 13, 32]
        [59, 9, 9, 2, 9, 9, 9, 9, 9, 9, 9, 9, 9, 9, 9, 32]).mask
      = 4 * count_matches [59, 0, 1, 2, 3, 4, 5, 6, 7, 8, 9, 10, 11, 12, 13, 32]
        [59, 9, 9, 2, 9, 9, 9, 9, 9, 9, 9, 9, 9, 9, 9, 32] ∧
    ((Mask.eq [59, 0, 1, 2, 3, 4, 5, 6, 7, 8, 9, 10, 11, 12, 13, 32]
        [59, 9, 9, 2, 9, 9, 9, 9, 9, 9, 9, 9, 9, 9, 9, 32]).has_match = true ↔
      ∃ i, i < 16 ∧
        ([59, 0, 1, 2, 3, 4, 5, 6, 7, 8, 9, 10, 11, 12, 13, 32] : List Nat).getD i 0
          = ([59, 9, 9, 2, 9, 9, 9, 9, 9, 9, 9, 9, 9, 9, 9, 32] : List Nat).getD i 0) ∧
    (∀ k, first_match [59, 0, 1, 2, 3, 4, 5, 6, 7, 8, 9, 10, 11, 12, 13, 32]
        [59, 9, 9, 2, 9, 9, 9, 9, 9, 9, 9, 9, 9, 9, 9, 32] = some k →
      (Mask.eq [59, 0, 1, 2, 3, 4, 5, 6, 7, 8, 9, 10, 11, 12, 13, 32]
        [59, 9, 9, 2, 9, 9, 9, 9, 9, 9, 9, 9, 9, 9, 9, 32]).first_match_index = k)) :=
  ⟨by decide, by decide,
    c9_mask_nibble_semantics _ _ (by decide) (by decide)⟩

/-! ## Spans, tag keys, whitelists -/

/-- `Span`: half-open byte range `[start, stop)` into the source
(the Rust field `end` is a Lean keyword, hence `stop`). -/
structure Span where
  start : Nat
  stop : Nat
deriving DecidableEq

/-- Resolve a span to the bytes of the source it points at. -/
def slice (src : List Nat) (s : Span) : List Nat :=
  (src.drop s.start).take (s.stop - s.start)

/-- Modelled from the spec: the closed tag-key enumeration (`Tag` /
`TagKey`).  The real table has around 80 known keys; this model carries the
keys the verified claims mention, every other key resolves to `unknown`
with the key span retained. -/
inductive Tag where
  | mod
  | id
  | roomId
  | userId
  | displayName
  | badges
  | badgeInfo
  | tmiSentTs
  | bits
  | color
  | emotes
  | replyParentMsgId
  | replyParentUserId
  | replyParentUserLogin
  | replyParentDisplayName
  | replyParentMsgBody
  | unknown (key : Span)
deriving DecidableEq

/-- Modelled from the spec: `TagKey::resolve(source[key_span])`, a closed
match from the key bytes to the enumeration. -/
def Tag.resolve (src : List Nat) (key : Span) : Tag :=
  let b := slice src key
  if b = [109, 111, 100] then .mod
  else if b = [105, 100] then .id
  else if b = [114, 111, 111, 109, 45, 105, 100] then .roomId
  else if b = [117, 115, 101, 114, 45, 105, 100] then .userId
  else if b = [100, 105, 115, 112, 108, 97, 121, 45, 110, 97, 109, 101] then
    .displayName
  else if b = [98, 97, 100, 103, 101, 115] then .badges
  else if b = [98, 97, 100, 103, 101, 45, 105, 110, 102, 111] then .badgeInfo
  else if b = [116, 109, 105, 45, 115, 101, 110, 116, 45, 116, 115] then
    .tmiSentTs
  else if b = [98, 105, 116, 115] then .bits
  else if b = [99, 111, 108, 111, 114] then .color
  else if b = [101, 109, 111, 116, 101, 115] then .emotes
  else .unknown key

/-- `RawTag { key, key_span, value }` of the spec data model. -/
structure RawTag where
  key : Tag
  key_span : Span
  value_span : Span
deriving DecidableEq

/-- A whitelist is its inserter's decision: given the source and the
`(key_span, value_span)` pair, keep the pair or drop it. -/
abbrev Whitelist := List Nat → Span → Span → Bool

/-- Modelled from the spec: `Whitelist::maybe_insert` conditionally pushes
`RawTag { key: TagKey::resolve(source[key_span]), key_span, value }`. -/
def maybe_insert (keep : Whitelist) (src : List Nat) (tags : List RawTag)
    (key value : Span) : List RawTag :=
  if keep src key value then tags ++ [⟨Tag.resolve src key, key, value⟩]
  else tags

/-- Modelled from the spec: the accept-all whitelist
(`whitelist_insert_all`). -/
def whitelist_insert_all : Whitelist := fun _ _ _ => true

/-- Modelled from the spec: the by-key-set whitelist (the `whitelist!`
macro): keep a pair iff its resolved key is in the closed set. -/
def whitelist_keys (keys : List Tag) : Whitelist :=
  fun src key _ => decide (Tag.resolve src key ∈ keys)

/-! ## `parse_tags` (`src/irc/simd/arm_neon.rs`, lines 28-86)

The loop body is translated statement by statement; the structural fuel
stands for the Rust `while`, and the wrapper passes `src.length + 1`, more
than the possible number of iterations (each iteration advances
`key_start` by at least 2 and the loop stops once `key_start` reaches
`src.length`). -/

def parse_tags_loop (src : List Nat) (keep : Whitelist) :
    Nat → Nat → List RawTag → List RawTag × Nat
  | 0, key_start, tags => (tags, key_start)
  | f + 1, key_start, tags =>
    if src.length ≤ key_start then (tags, key_start)
    else
      match find_equals (src.drop key_start) with
      | none => (tags, key_start)
      | some off =>
        -- key_end = off + key_start (`key_end += key_start`)
        -- value_start = key_end + 1
        match find_semi_or_space (src.drop (off + key_start + 1)) with
        | some (.semi v) =>
          -- value_end = v + value_start; advance to after the `;`
          parse_tags_loop src keep f (v + (off + key_start + 1) + 1)
            (maybe_insert keep src tags ⟨key_start, off + key_start⟩
              ⟨off + key_start + 1, v + (off + key_start + 1)⟩)
        | some (.space v) =>
          -- value_end = v + value_start; advance to after the ` `
          (maybe_insert keep src tags ⟨key_start, off + key_start⟩
              ⟨off + key_start + 1, v + (off + key_start + 1)⟩,
            v + (off + key_start + 1) + 1)
        | none =>
          (maybe_insert keep src tags ⟨key_start, off + key_start⟩
              ⟨off + key_start + 1, src.length⟩,
            src.length)

/-- `parse_tags`: `@`-guard, tag loop, and the write-back of the cursor
(the returned `Nat` is the final value of `pos`). -/
def parse_tags (src : List Nat) (pos : Nat) (keep : Whitelist) :
    List RawTag × Nat :=
  if (src.drop pos).head? = some 64 then
    parse_tags_loop src keep (src.length + 1) (pos + 1) []
  else ([], pos)

theorem find_equals_nil : find_equals [] = none := rfl

theorem find_semi_or_space_nil : find_semi_or_space [] = none := rfl

theorem find_equals_some_lt {s : List Nat} {i : Nat}
    (h : find_equals s = some i) : i < s.length := by
  rw [find_equals_eq] at h
  exact findChar_some_lt h

theorem sss_semi_lt {s : List Nat} {i : Nat}
    (h : scalar_find_semi_or_space s = some (.semi i)) : i < s.length :=
  ((sss_semi_iff s i).mp h).1

theorem sss_space_lt {s : List Nat} {i : Nat}
    (h : scalar_find_semi_or_space s = some (.space i)) : i < s.length :=
  ((sss_space_iff s i).mp h).1

/-- The tag-parsing loop as the spec states it (§4.2 step 3): no emptiness
guard, `find_equals` decides the exit, `key_end = key_start + offset`,
values end at `;` (continue), ` ` (stop) or end-of-source (stop). -/
def spec_parse_tags_loop (src : List Nat) (keep : Whitelist)
    (key_start : Nat) (tags : List RawTag) : List RawTag × Nat :=
  match h1 : find_equals (src.drop key_start) with
  | none => (tags, key_start)
  | some off =>
    -- key_end = key_start + off, value_start = key_end + 1
    match h2 : find_semi_or_space (src.drop (key_start + off + 1)) with
    | some (.semi v) =>
      -- value_end = value_start + v; continue after the `;`
      spec_parse_tags_loop src keep (key_start + off + 1 + v + 1)
        (maybe_insert keep src tags ⟨key_start, key_start + off⟩
          ⟨key_start + off + 1, key_start + off + 1 + v⟩)
    | some (.space v) =>
      -- value_end = value_start + v; tag section ended
      (maybe_insert keep src tags ⟨key_start, key_start + off⟩
          ⟨key_start + off + 1, key_start + off + 1 + v⟩,
        key_start + off + 1 + v + 1)
    | none =>
      -- value runs to end-of-source
      (maybe_insert keep src tags ⟨key_start, key_start + off⟩
          ⟨key_start + off + 1, src.length⟩,
        src.length)
termination_by src.length - key_start
decreasing_by
  have h1' : findChar (src.drop key_start) 61 = some off := by
    rw [← find_equals_eq]; exact h1
  have hlt := findChar_some_lt h1'
  simp only [List.length_drop] at hlt
  omega

/-- The spec's `parse_tags` (§4.2 steps 1, 2 and 4). -/
def spec_parse_tags (src : List Nat) (pos : Nat) (keep : Whitelist) :
    List RawTag × Nat :=
  if (src.drop pos).head? = some 64 then
    spec_parse_tags_loop src keep (pos + 1) []
  else ([], pos)

theorem spec_loop_exit (src : List Nat) (keep : Whitelist) (ks : Nat)
    (tags : List RawTag) (h : find_equals (src.drop ks) = none) :
    spec_parse_tags_loop src keep ks tags = (tags, ks) := by
  rw [spec_parse_tags_loop.eq_def]
  split
  · rfl
  · rename_i off heq
    rw [h] at heq
    exact Option.noConfusion heq

theorem spec_loop_semi (src : List Nat) (keep : Whitelist) (ks : Nat)
    (tags : List RawTag) (off v : Nat)
    (h1 : find_equals (src.drop ks) = some off)
    (h2 : find_semi_or_space (src.drop (ks + off + 1)) = some (.semi v)) :
    spec_parse_tags_loop src keep ks tags
      = spec_parse_tags_loop src keep (ks + off + 1 + v + 1)
          (maybe_insert keep src tags ⟨ks, ks + off⟩
            ⟨ks + off + 1, ks + off + 1 + v⟩) := by
  rw [spec_parse_tags_loop.eq_def]
  split
  · rename_i heq
    rw [h1] at heq
    exact Option.noConfusion heq
  · rename_i off' heq
    rw [h1] at heq
    obtain rfl : off = off' := Option.some.inj heq
    split
    · rename_i v' heq2
      rw [h2] at heq2
      obtain rfl : v = v' := by
        cases Option.some.inj heq2
        rfl
      rfl
    · rename_i v' heq2
      rw [h2] at heq2
      exact Found.noConfusion (Option.some.inj heq2)
    · rename_i heq2
      rw [h2] at heq2
      exact Option.noConfusion heq2

theorem spec_loop_space (src : List Nat) (keep : Whitelist) (ks : Nat)
    (tags : List RawTag) (off v : Nat)
    (h1 : find_equals (src.drop ks) = some off)
    (h2 : find_semi_or_space (src.drop (ks + off + 1)) = some (.space v)) :
    spec_parse_tags_loop src keep ks tags
      = (maybe_insert keep src tags ⟨ks, ks + off⟩
            ⟨ks + off + 1, ks + off + 1 + v⟩,
          ks + off + 1 + v + 1) := by
  rw [spec_parse_tags_loop.eq_def]
  split
  · rename_i heq
    rw [h1] at heq
    exact Option.noConfusion heq
  · rename_i off' heq
    rw [h1] at heq
    obtain rfl : off = off' := Option.some.inj heq
    split
    · rename_i v' heq2
      rw [h2] at heq2
      exact Found.noConfusion (Option.some.inj heq2)
    · rename_i v' heq2
      rw [h2] at heq2
      obtain rfl : v = v' := by
        cases Option.some.inj heq2
        rfl
      rfl
    · rename_i heq2
      rw [h2] at heq2
      exact Option.noConfusion heq2

theorem spec_loop_eos (src : List Nat) (keep : Whitelist) (ks : Nat)
    (tags : List RawTag) (off : Nat)
    (h1 : find_equals (src.drop ks) = some off)
    (h2 : find_semi_or_space (src.drop (ks + off + 1)) = none) :
    spec_parse_tags_loop src keep ks tags
      = (maybe_insert keep src tags ⟨ks, ks + off⟩
            ⟨ks + off + 1, src.length⟩,
          src.length) := by
  rw [spec_parse_tags_loop.eq_def]
  split
  · rename_i heq
    rw [h1] at heq
    exact Option.noConfusion heq
  · rename_i off' heq
    rw [h1] at heq
    obtain rfl : off = off' := Option.some.inj heq
    split
    · rename_i v' heq2
      rw [h2] at heq2
      exact Option.noConfusion heq2
    · rename_i v' heq2
      rw [h2] at heq2
      exact Option.noConfusion heq2
    · rfl

theorem parse_tags_loop_eq_spec (src : List Nat) (keep : Whitelist) :
    ∀ f ks tags, src.length + 1 ≤ f + ks →
      parse_tags_loop src keep f ks tags
        = spec_parse_tags_loop src keep ks tags := by
  intro f
  induction f with
  | zero =>
    intro ks tags hf
    have hdrop : src.drop ks = [] := List.drop_eq_nil_of_le (by omega)
    show (tags, ks) = _
    rw [spec_loop_exit src keep ks tags (by rw [hdrop]; exact find_equals_nil)]
  | succ f ih =>
    intro ks tags hf
    rw [parse_tags_loop]
    by_cases hks : src.length ≤ ks
    · have hdrop : src.drop ks = [] := List.drop_eq_nil_of_le hks
      rw [if_pos hks,
        spec_loop_exit src keep ks tags (by rw [hdrop]; exact find_equals_nil)]
    · rw [if_neg hks]
      cases h1 : find_equals (src.drop ks) with
      | none =>
        dsimp only
        rw [spec_loop_exit src keep ks tags h1]
      | some off =>
        dsimp only
        have ea : off + ks = ks + off := Nat.add_comm off ks
        cases h2 : find_semi_or_space (src.drop (off + ks + 1)) with
        | none =>
          dsimp only
          rw [spec_loop_eos src keep ks tags off h1
            (by rw [show ks + off + 1 = off + ks + 1 by omega]; exact h2)]
          rw [ea]
        | some fnd =>
          cases fnd with
          | semi v =>
            dsimp only
            rw [spec_loop_semi src keep ks tags off v h1
              (by rw [show ks + off + 1 = off + ks + 1 by omega]; exact h2)]
            rw [ea, show v + (ks + off + 1) = ks + off + 1 + v by omega]
            exact ih (ks + off + 1 + v + 1) _ (by omega)
          | space v =>
            dsimp only
            rw [spec_loop_space src keep ks tags off v h1
              (by rw [show ks + off + 1 = off + ks + 1 by omega]; exact h2)]
            rw [ea, show v + (ks + off + 1) = ks + off + 1 + v by omega]

/-- C1: `parse_tags` follows the § 4.2 algorithm of the spec exactly: the
`@`-guard with the cursor left unchanged, the `find_equals` /
`find_semi_or_space` loop with its three exits, and the final write-back of
the cursor. -/
theorem c1_parse_tags_follows_spec (src : List Nat) (pos : Nat)
    (keep : Whitelist) :
    parse_tags src pos keep = spec_parse_tags src pos keep := by
  rw [parse_tags, spec_parse_tags]
  by_cases h : (src.drop pos).head? = some 64
  · rw [if_pos h, if_pos h]
    exact parse_tags_loop_eq_spec src keep (src.length + 1) (pos + 1) []
      (by omega)
  · rw [if_neg h, if_neg h]

/-- C5 counterexample: on `"@a;b=c "` (bytes `[64,97,59,98,61,99,32]`) the
parser does NOT exit without consuming: `find_equals` skips past the `;`,
one tag with key span `[1,4)` (the bytes `"a;b"`) and value span `[5,6)`
(`"c"`) is emitted, and the cursor ends at 7, not at the start of the
malformed key (1). -/
theorem c5_missing_equals_counterexample :
    parse_tags [64, 97, 59, 98, 61, 99, 32] 0 whitelist_insert_all
      = ([⟨Tag.unknown ⟨1, 4⟩, ⟨1, 4⟩, ⟨5, 6⟩⟩], 7) ∧
    ¬ ((parse_tags [64, 97, 59, 98, 61, 99, 32] 0 whitelist_insert_all).1 = []
        ∧ (parse_tags [64, 97, 59, 98, 61, 99, 32] 0
            whitelist_insert_all).2 = 1) := by
  constructor
  · decide
  · decide

/-- C5 (amended): the tag loop exits without emitting anything and leaves
the cursor at the start of the malformed key only when `find_equals` finds
no `=` anywhere in the rest of the input; a `;` standing before the next
`=` does not terminate the key but is absorbed into it. -/
theorem c5_no_equals_exits_without_consuming (src : List Nat) (pos : Nat)
    (keep : Whitelist) (hat : (src.drop pos).head? = some 64)
    (hne : find_equals (src.drop (pos + 1)) = none) :
    parse_tags src pos keep = ([], pos + 1) := by
  rw [parse_tags, if_pos hat]
  by_cases hks : src.length ≤ pos + 1
  · rw [parse_tags_loop, if_pos hks]
  · rw [parse_tags_loop, if_neg hks, hne]

theorem c5_no_equals_witness :
    (([64, 97, 98] : List Nat).drop 0).head? = some 64 ∧
    find_equals (([64, 97, 98] : List Nat).drop 1) = none ∧
    parse_tags [64, 97, 98] 0 whitelist_insert_all = ([], 1) :=
  ⟨by decide, by decide,
    c5_no_equals_exits_without_consuming [64, 97, 98] 0 whitelist_insert_all
      (by decide) (by decide)⟩

theorem maybe_insert_append (keep : Whitelist) (src : List Nat)
    (a b : List RawTag) (k v : Span) :
    maybe_insert keep src (a ++ b) k v = a ++ maybe_insert keep src b k v := by
  rw [maybe_insert, maybe_insert]
  by_cases h : keep src k v <;> simp [h]

theorem maybe_insert_as_append (keep : Whitelist) (src : List Nat)
    (tags : List RawTag) (k v : Span) :
    maybe_insert keep src tags k v = tags ++ maybe_insert keep src [] k v := by
  rw [maybe_insert, maybe_insert]
  by_cases h : keep src k v <;> simp [h]

theorem parse_tags_loop_acc (src : List Nat) (keep : Whitelist) :
    ∀ f ks tags, parse_tags_loop src keep f ks tags
      = (tags ++ (parse_tags_loop src keep f ks []).1,
        (parse_tags_loop src keep f ks []).2) := by
  intro f
  induction f with
  | zero => intro ks tags; simp [parse_tags_loop]
  | succ f ih =>
    intro ks tags
    rw [parse_tags_loop, parse_tags_loop]
    by_cases hks : src.length ≤ ks
    · simp [if_pos hks]
    · rw [if_neg hks, if_neg hks]
      cases h1 : find_equals (src.drop ks) with
      | none => simp
      | some off =>
        dsimp only
        cases h2 : find_semi_or_space (src.drop (off + ks + 1)) with
        | none => simp [maybe_insert_as_append keep src tags]
        | some fnd =>
          cases fnd with
          | semi v =>
            dsimp only
            rw [ih _ (maybe_insert keep src tags _ _),
              ih _ (maybe_insert keep src [] _ _)]
            simp [maybe_insert_as_append keep src tags]
          | space v =>
            simp [maybe_insert_as_append keep src tags]

theorem parse_tags_loop_filter (src : List Nat) (keep : Whitelist) :
    ∀ f ks,
      (parse_tags_loop src keep f ks []).1
        = ((parse_tags_loop src whitelist_insert_all f ks []).1).filter
            (fun t => keep src t.key_span t.value_span)
      ∧ (parse_tags_loop src keep f ks []).2
        = (parse_tags_loop src whitelist_insert_all f ks []).2 := by
  intro f
  induction f with
  | zero => intro ks; simp [parse_tags_loop]
  | succ f ih =>
    intro ks
    rw [parse_tags_loop, parse_tags_loop]
    by_cases hks : src.length ≤ ks
    · simp [if_pos hks]
    · rw [if_neg hks, if_neg hks]
      cases h1 : find_equals (src.drop ks) with
      | none => simp
      | some off =>
        dsimp only
        cases h2 : find_semi_or_space (src.drop (off + ks + 1)) with
        | none =>
          dsimp only
          rw [maybe_insert, maybe_insert, whitelist_insert_all, if_pos rfl]
          by_cases hk : keep src ⟨ks, off + ks⟩ ⟨off + ks + 1, src.length⟩
          · simp [if_pos hk, hk]
          · simp only [if_neg hk, List.nil_append, List.filter_cons]
            simp [hk]
        | some fnd =>
          cases fnd with
          | semi v =>
            dsimp only
            rw [parse_tags_loop_acc src keep f _ (maybe_insert keep src [] _ _),
              parse_tags_loop_acc src whitelist_insert_all f _
                (maybe_insert whitelist_insert_all src [] _ _)]
            rcases ih (v + (off + ks + 1) + 1) with ⟨ihl, ihr⟩
            constructor
            · simp only [List.filter_append, ihl]
              congr 1
              rw [maybe_insert, maybe_insert, whitelist_insert_all, if_pos rfl]
              by_cases hk : keep src ⟨ks, off + ks⟩
                  ⟨off + ks + 1, v + (off + ks + 1)⟩
              · simp [if_pos hk, hk]
              · simp only [if_neg hk, List.nil_append, List.filter_cons]
                simp [hk]
            · simpa using ihr
          | space v =>
            dsimp only
            rw [maybe_insert, maybe_insert, whitelist_insert_all, if_pos rfl]
            by_cases hk : keep src ⟨ks, off + ks⟩
                ⟨off + ks + 1, v + (off + ks + 1)⟩
            · simp [if_pos hk, hk]
            · simp only [if_neg hk, List.nil_append, List.filter_cons]
              simp [hk]

theorem parse_tags_filter_all (src : List Nat) (pos : Nat)
    (keep : Whitelist) :
    parse_tags src pos keep
      = ((parse_tags src pos whitelist_insert_all).1.filter
            (fun t => keep src t.key_span t.value_span),
          (parse_tags src pos whitelist_insert_all).2) := by
  rw [parse_tags, parse_tags]
  by_cases h : (src.drop pos).head? = some 64
  · rw [if_pos h, if_pos h]
    rcases parse_tags_loop_filter src keep (src.length + 1) (pos + 1)
      with ⟨hl, hr⟩
    exact Prod.ext hl hr
  · rw [if_neg h, if_neg h]
    simp

/-- C6: tag order is insertion-stable.  For every source, cursor and
whitelist, the parsed tag list is exactly the in-order filter of the
accept-all tag list (so the k-th kept tag corresponds to the k-th
`key=value` pair of the source, and duplicate keys are all kept in
position), and the cursor does not depend on the whitelist. -/
theorem c6_insertion_stable_order (src : List Nat) (pos : Nat)
    (keep : Whitelist) :
    parse_tags src pos keep
      = ((parse_tags src pos whitelist_insert_all).1.filter
            (fun t => keep src t.key_span t.value_span),
          (parse_tags src pos whitelist_insert_all).2) :=
  parse_tags_filter_all src pos keep

/-! ## The line parser, modelled from the spec

Only `parse_tags` of the line parser is among the sources
(`src/irc/simd/arm_neon.rs`); the prefix, command, channel and params
stages (`src/irc/scalar.rs` and the `IrcMessage` module) are referenced by
the sources but absent, so they are modelled from the spec (§3, §4.3-4.5,
§6, §7). -/

/-- Modelled from the spec: strip one optional trailing `\r\n`, `\r` or
`\n` before parsing (§3 invariant 5, §6). -/
def strip_crlf (l : List Nat) : List Nat :=
  if l.getLast? = some 10 then
    if l.dropLast.getLast? = some 13 then l.dropLast.dropLast else l.dropLast
  else if l.getLast? = some 13 then l.dropLast
  else l

/-- The prefix view `{ nick, user, host }` (§3). -/
structure PrefixSpans where
  nick : Option Span
  user : Option Span
  host : Span
deriving DecidableEq

/-- Modelled from the spec (§4.3): the scalar `parse_prefix` of
`src/irc/scalar.rs`, which is not among the sources.  If the next byte is
`:`, scan to the next space (`none`, a parse error, when there is none),
then split the token left-to-right at `!` and `@` into the accepted shapes
`nick!user@host`, `nick@host`, `host`; a token with `!` but no later `@`
falls back to the whole token as `host`. -/
def parsePfx (src : List Nat) (pos : Nat) :
    Option (Option PrefixSpans × Nat) :=
  if (src.drop pos).head? = some 58 then
    match findChar (src.drop (pos + 1)) 32 with
    | none => none
    | some sp =>
      match findChar (slice src ⟨pos + 1, pos + 1 + sp⟩) 33 with
      | some bang =>
        match findChar ((slice src ⟨pos + 1, pos + 1 + sp⟩).drop (bang + 1))
            64 with
        | some a =>
          some (some ⟨some ⟨pos + 1, pos + 1 + bang⟩,
            some ⟨pos + 1 + bang + 1, pos + 1 + bang + 1 + a⟩,
            ⟨pos + 1 + bang + 1 + a + 1, pos + 1 + sp⟩⟩, pos + 1 + sp + 1)
        | none =>
          some (some ⟨none, none, ⟨pos + 1, pos + 1 + sp⟩⟩, pos + 1 + sp + 1)
      | none =>
        match findChar (slice src ⟨pos + 1, pos + 1 + sp⟩) 64 with
        | some a =>
          some (some ⟨some ⟨pos + 1, pos + 1 + a⟩, none,
            ⟨pos + 1 + a + 1, pos + 1 + sp⟩⟩, pos + 1 + sp + 1)
        | none =>
          some (some ⟨none, none, ⟨pos + 1, pos + 1 + sp⟩⟩, pos + 1 + sp + 1)
  else some (none, pos)

/-- Modelled from the spec (§6): the command enumeration, with a span for
unknown commands.  The model carries the commands the claims mention. -/
inductive Command where
  | ping
  | pong
  | privmsg
  | join
  | part
  | reconnect
  | usernotice
  | other (sp : Span)
deriving DecidableEq

/-- Modelled from the spec (§4.4): map the command token to the
enumeration; unknown tokens keep their span. -/
def Command.resolve (src : List Nat) (sp : Span) : Command :=
  let b := slice src sp
  if b = [80, 73, 78, 71] then .ping
  else if b = [80, 79, 78, 71] then .pong
  else if b = [80, 82, 73, 86, 77, 83, 71] then .privmsg
  else if b = [74, 79, 73, 78] then .join
  else if b = [80, 65, 82, 84] then .part
  else if b = [82, 69, 67, 79, 78, 78, 69, 67, 84] then .reconnect
  else if b = [85, 83, 69, 82, 78, 79, 84, 73, 67, 69] then .usernotice
  else .other sp

/-- Modelled from the spec (§4.4): read the command token up to the next
space or end of line; an empty command token is a parse error. -/
def parse_command (src : List Nat) (pos : Nat) : Option (Command × Nat) :=
  match findChar (src.drop pos) 32 with
  | some k =>
    if k = 0 then none
    else some (Command.resolve src ⟨pos, pos + k⟩, pos + k + 1)
  | none =>
    if src.length ≤ pos then none
    else some (Command.resolve src ⟨pos, src.length⟩, src.length)

/-- Modelled from the spec (§4.5): when the next token begins with `#`,
record the channel span without the `#` and advance past the token. -/
def parse_channel (src : List Nat) (pos : Nat) : Option Span × Nat :=
  if (src.drop pos).head? = some 35 then
    match findChar (src.drop (pos + 1)) 32 with
    | some k => (some ⟨pos + 1, pos + 1 + k⟩, pos + 1 + k + 1)
    | none => (some ⟨pos + 1, src.length⟩, src.length)
  else (none, pos)

/-- First index at which the two-byte sequence ` :` (space, colon)
begins. -/
def find_sc : List Nat → Option Nat
  | x :: y :: rest =>
    if x = 32 ∧ y = 58 then some 0 else (find_sc (y :: rest)).map (· + 1)
  | _ => none

/-- The borrowed message view (§3): tags, optional prefix, command,
optional channel, params and trailing-text spans. -/
structure IrcMessage where
  tags : List RawTag
  pfx : Option PrefixSpans
  command : Command
  channel : Option Span
  params : Option Span
  text : Option Span
deriving DecidableEq

/-- Modelled from the spec (§2, §4, §6, §7): the whole line parser.
Strip the terminator, parse tags through the whitelist, then prefix
(`none` on an unterminated prefix), command (`none` on an empty token),
channel, params (everything left, leading space trimmed) and trailing text
(after the first ` :` following the command/channel). -/
def parse_message (src0 : List Nat) (keep : Whitelist) : Option IrcMessage :=
  let src := strip_crlf src0
  let t := parse_tags src 0 keep
  match parsePfx src t.2 with
  | none => none
  | some (pfx, p2) =>
    match parse_command src p2 with
    | none => none
    | some (cmd, p3) =>
      let ch := parse_channel src p3
      some
        { tags := t.1
          pfx := pfx
          command := cmd
          channel := ch.1
          params := if ch.2 < src.length then some ⟨ch.2, src.length⟩ else none
          text :=
            if ch.2 = 0 ∨ src.length ≤ ch.2 then none
            else (find_sc (src.drop (ch.2 - 1))).map
              (fun r => ⟨ch.2 - 1 + r + 2, src.length⟩) }

/-- C7: parsing with a whitelist yields exactly the message of the
accept-all parse with its tag sequence filtered in place by the whitelist
(and `None` exactly when the accept-all parse is `None`); prefix, command,
channel, params and text are untouched. -/
theorem c7_whitelist_filters_tags_only (src : List Nat) (keep : Whitelist) :
    parse_message src keep
      = (parse_message src whitelist_insert_all).map
          (fun m => { m with
            tags := m.tags.filter
              (fun t => keep (strip_crlf src) t.key_span t.value_span) }) := by
  simp only [parse_message]
  rw [parse_tags_filter_all (strip_crlf src) 0 keep]
  dsimp only
  cases hp : parsePfx (strip_crlf src)
      (parse_tags (strip_crlf src) 0 whitelist_insert_all).2 with
  | none => rfl
  | some pr =>
    obtain ⟨pfx, p2⟩ := pr
    dsimp only
    cases hc : parse_command (strip_crlf src) p2 with
    | none => rfl
    | some cp =>
      obtain ⟨cmd, p3⟩ := cp
      dsimp only
      rfl

/-! ## The typed view `Privmsg` (`src/msg/privmsg.rs`)

Resolved tag values and accessor results are `List Char` (the `&str`
values the `IrcMessageRef` accessors return).  The accessors themselves
(`tag`, `channel`, `text`, `prefix`) and the small helpers of the `msg`
module are not among the sources and are modelled from the spec; the body
of `Privmsg::from_irc` is translated clause by clause from
`src/msg/privmsg.rs`. -/

/-- The characters of a string literal. -/
def strOf (s : String) : List Char := s.data

/-- `User { id, login, name }`. -/
structure User where
  id : List Char
  login : List Char
  name : List Char
deriving DecidableEq

/-- A `name/version` badge. -/
structure Badge where
  name : List Char
  version : List Char
deriving DecidableEq

/-- `Reply { message_id, sender, text }`. -/
structure Reply where
  message_id : List Char
  sender : User
  text : List Char
deriving DecidableEq

/-- The resolved prefix accessor result. -/
structure PrefixRef where
  nick : Option (List Char)
  user : Option (List Char)
  host : List Char
deriving DecidableEq

/-- Modelled from the spec: the view of `IrcMessageRef` that the typed
views project from: command, resolved `(TagKey, value)` pairs in order,
and the `channel` / `text` / `prefix` accessor results. -/
structure IrcMessageRef where
  command : Command
  tags : List (Tag × List Char)
  channel : Option (List Char)
  text : Option (List Char)
  pfx : Option PrefixRef
deriving DecidableEq

/-- `IrcMessageRef::tag`: the value of the first tag with the given key. -/
def tagOf (m : IrcMessageRef) (t : Tag) : Option (List Char) :=
  (m.tags.find? (fun p => decide (p.1 = t))).map (·.2)

/-- ASCII digit test (`char::is_ascii_digit`). -/
def isDigitChar (c : Char) : Bool := decide (48 ≤ c.toNat ∧ c.toNat ≤ 57)

/-- Modelled from the spec: `str::parse::<u64>` restricted to its happy
path: a nonempty all-digit string parses to its decimal value. -/
def digitsToNat (l : List Char) : Option Nat :=
  if l ≠ [] ∧ l.all isDigitChar then
    some (l.foldl (fun acc c => acc * 10 + (c.toNat - 48)) 0)
  else none

/-- Modelled from the spec (§4.7): `parse_timestamp` parses `tmi-sent-ts`
as milliseconds since the Unix epoch; failure yields `None`. -/
def parse_timestamp (s : List Char) : Option Nat := digitsToNat s

/-- Modelled from the spec (§4.7): `/me` action detection — text of the
shape `\x01ACTION <body>\x01` is stripped of both markers and flagged. -/
def parse_message_text (s : List Char) : List Char × Bool :=
  if (strOf "\x01ACTION ").isPrefixOf s = true
      ∧ s.getLast? = some (Char.ofNat 1) then
    ((s.drop 9).dropLast, true)
  else (s, false)

/-- Split a character list at every occurrence of `c`. -/
def splitOnChar (c : Char) : List Char → List (List Char)
  | [] => [[]]
  | x :: xs =>
    if x = c then [] :: splitOnChar c xs
    else
      match splitOnChar c xs with
      | [] => [[x]]
      | g :: gs => (x :: g) :: gs

/-- Modelled from the spec (§4.7): `parse_badges` splits the `badges` tag
value at `,` into `name/version` pairs; it never fails.  (The subscriber
months carried by `badge-info` are not represented in this `Badge`
model.) -/
def parse_badges (badges _info : List Char) : List Badge :=
  ((splitOnChar ',' badges).filter (· ≠ [])).map fun t =>
    ⟨t.takeWhile (· ≠ '/'), (t.dropWhile (· ≠ '/')).drop 1⟩

/-- The `Privmsg` view (`src/msg/privmsg.rs`, lines 8-22). -/
structure Privmsg where
  channel : List Char
  channel_id : List Char
  message_id : List Char
  sender : User
  reply_to : Option Reply
  text : List Char
  is_action : Bool
  badges : List Badge
  color : Option (List Char)
  bits : Option Nat
  emotes : List Char
  timestamp : Nat
deriving DecidableEq

/-- `Privmsg::from_irc` (`src/msg/privmsg.rs`, lines 101-138), translated
clause by clause; every Rust `?` is an early `None` of the whole view,
while the `?`s inside the `reply_to` closure and the fallible `bits`
parse only make that one field `None`. -/
def from_irc (m : IrcMessageRef) : Option Privmsg :=
  if m.command ≠ Command.privmsg then none
  else
    let reply_to : Option Reply :=
      (tagOf m .replyParentMsgId).bind fun mid =>
        match tagOf m .replyParentUserId, tagOf m .replyParentUserLogin,
            tagOf m .replyParentDisplayName, tagOf m .replyParentMsgBody with
        | some uid, some ulogin, some uname, some body =>
          some ⟨mid, ⟨uid, ulogin, uname⟩, body⟩
        | _, _, _, _ => none
    match m.text with
    | none => none
    | some t0 =>
      match m.channel, tagOf m .roomId, tagOf m .id, tagOf m .userId,
          m.pfx.bind (·.nick), tagOf m .displayName, tagOf m .badges,
          tagOf m .badgeInfo, (tagOf m .tmiSentTs).bind parse_timestamp with
      | some channel, some channel_id, some message_id, some uid, some login,
          some name, some badges, some badge_info, some ts =>
        some
          { channel := channel
            channel_id := channel_id
            message_id := message_id
            sender := ⟨uid, login, name⟩
            reply_to := reply_to
            text := (parse_message_text t0).1
            is_action := (parse_message_text t0).2
            badges := parse_badges badges badge_info
            color := (tagOf m .color).filter (fun s => decide (s ≠ []))
            bits := (tagOf m .bits).bind digitsToNat
            emotes := (tagOf m .emotes).getD []
            timestamp := ts }
      | _, _, _, _, _, _, _, _, _ => none

theorem from_irc_isSome_iff (m : IrcMessageRef) :
    (from_irc m).isSome = true ↔
      m.command = Command.privmsg ∧ m.channel.isSome = true ∧
      m.text.isSome = true ∧ (m.pfx.bind (·.nick)).isSome = true ∧
      (tagOf m .roomId).isSome = true ∧ (tagOf m .id).isSome = true ∧
      (tagOf m .userId).isSome = true ∧
      (tagOf m .displayName).isSome = true ∧
      (tagOf m .badges).isSome = true ∧
      (tagOf m .badgeInfo).isSome = true ∧
      ((tagOf m .tmiSentTs).bind parse_timestamp).isSome = true := by
  rw [from_irc]
  by_cases hcmd : m.command = Command.privmsg
  · rw [if_neg (by simp [hcmd])]
    dsimp only
    cases ht : m.text with
    | none => simp [ht]
    | some t0 =>
      dsimp only
      cases h1 : m.channel with
      | none => simp [h1, ht]
      | some ch =>
        cases h2 : tagOf m .roomId with
        | none => simp [h1, h2, ht]
        | some x2 =>
          cases h3 : tagOf m .id with
          | none => simp [h1, h2, h3, ht]
          | some x3 =>
            cases h4 : tagOf m .userId with
            | none => simp [h1, h2, h3, h4, ht]
            | some x4 =>
              cases h5 : m.pfx.bind (·.nick) with
              | none => simp [h1, h2, h3, h4, h5, ht]
              | some x5 =>
                cases h6 : tagOf m .displayName with
                | none => simp [h1, h2, h3, h4, h5, h6, ht]
                | some x6 =>
                  cases h7 : tagOf m .badges with
                  | none => simp [h1, h2, h3, h4, h5, h6, h7, ht]
                  | some x7 =>
                    cases h8 : tagOf m .badgeInfo with
                    | none => simp [h1, h2, h3, h4, h5, h6, h7, h8, ht]
                    | some x8 =>
                      cases h9 : (tagOf m .tmiSentTs).bind parse_timestamp with
                      | none => simp [h1, h2, h3, h4, h5, h6, h7, h8, h9, ht]
                      | some x9 =>
                        simp [hcmd, h1, h2, h3, h4, h5, h6, h7, h8, h9, ht]
  · rw [if_pos hcmd]
    simp [hcmd]

/-- A `PRIVMSG` message carrying every required field, whose `bits` tag
value `"abc"` does not parse as a number. -/
def bits_failure_msg : IrcMessageRef :=
  { command := .privmsg
    tags := [(.roomId, strOf "1"), (.id, strOf "x"), (.userId, strOf "2"),
      (.displayName, strOf "A"), (.badges, strOf "bits/100"),
      (.badgeInfo, []), (.tmiSentTs, strOf "1594571566672"),
      (.bits, strOf "abc")]
    channel := some (strOf "c")
    text := some (strOf "hi")
    pfx := some ⟨some (strOf "a"), none, strOf "a.tmi.twitch.tv"⟩ }

/-- C8 counterexample: a `bits` tag that fails to parse does NOT make
`Privmsg::from_irc` return `None`; the view is produced with
`bits = None`. -/
theorem c8_bits_parse_failure_counterexample :
    tagOf bits_failure_msg .bits = some (strOf "abc") ∧
    digitsToNat (strOf "abc") = none ∧
    (from_irc bits_failure_msg).isSome = true ∧
    (from_irc bits_failure_msg).map Privmsg.bits = some none := by
  refine ⟨?_, ?_, ?_, ?_⟩ <;> decide

/-- C8 (amended): `Privmsg::from_irc` returns `Some` exactly when the
command is `Privmsg` and the channel, the trailing text, the sender login
(the prefix nick) and the required tags (`room-id`, `id`, `user-id`,
`display-name`, `badges`, `badge-info`, `tmi-sent-ts`) are all present and
the timestamp parses.  A failing `bits` parse only nulls the `bits` field,
and badge parsing is total, so neither can fail the view. -/
theorem c8_from_irc_some_characterization (m : IrcMessageRef) :
    (from_irc m).isSome = true ↔
      m.command = Command.privmsg ∧ m.channel.isSome = true ∧
      m.text.isSome = true ∧ (m.pfx.bind (·.nick)).isSome = true ∧
      (tagOf m .roomId).isSome = true ∧ (tagOf m .id).isSome = true ∧
      (tagOf m .userId).isSome = true ∧
      (tagOf m .displayName).isSome = true ∧
      (tagOf m .badges).isSome = true ∧
      (tagOf m .badgeInfo).isSome = true ∧
      ((tagOf m .tmiSentTs).bind parse_timestamp).isSome = true :=
  from_irc_isSome_iff m

/-- C10: a `PRIVMSG` without a prefix nick yields no `Privmsg` view, even
when the channel, the text and every required tag are present: the sender
login comes from the prefix (`src/msg/privmsg.rs` line 126). -/
theorem c10_privmsg_requires_prefix_nick (m : IrcMessageRef)
    (hcmd : m.command = Command.privmsg)
    (hnick : m.pfx.bind (·.nick) = none) :
    from_irc m = none := by
  cases hf : from_irc m with
  | none => rfl
  | some v =>
    have hs : (from_irc m).isSome = true := by rw [hf]; rfl
    rcases (from_irc_isSome_iff m).mp hs with ⟨_, _, _, h4, _⟩
    rw [hnick] at h4
    exact Bool.noConfusion h4

/-- A `PRIVMSG` message with every required tag, channel and text present,
but no prefix at all. -/
def no_nick_msg : IrcMessageRef :=
  { command := .privmsg
    tags := [(.roomId, strOf "1"), (.id, strOf "x"), (.userId, strOf "2"),
      (.displayName, strOf "A"), (.badges, []), (.badgeInfo, []),
      (.tmiSentTs, strOf "1594571566672")]
    channel := some (strOf "c")
    text := some (strOf "hi")
    pfx := none }

theorem c10_privmsg_requires_prefix_nick_witness :
    no_nick_msg.command = Command.privmsg ∧
    no_nick_msg.pfx.bind (·.nick) = none ∧
    no_nick_msg.channel.isSome = true ∧
    no_nick_msg.text.isSome = true ∧
    (tagOf no_nick_msg .roomId).isSome = true ∧
    (tagOf no_nick_msg .id).isSome = true ∧
    (tagOf no_nick_msg .userId).isSome = true ∧
    (tagOf no_nick_msg .displayName).isSome = true ∧
    (tagOf no_nick_msg .badges).isSome = true ∧
    (tagOf no_nick_msg .badgeInfo).isSome = true ∧
    ((tagOf no_nick_msg .tmiSentTs).bind parse_timestamp).isSome = true ∧
    from_irc no_nick_msg = none :=
  ⟨rfl, rfl, rfl, rfl, by decide, by decide, by decide, by decide, by decide,
    by decide, by decide,
    c10_privmsg_requires_prefix_nick no_nick_msg rfl rfl⟩

/-! ## UTF-8 boundaries

The span invariant of the spec (§3, §8 invariant 1).  A byte is a
continuation byte iff it lies in `[0x80, 0xC0)`; a position is a character
boundary iff it is the end of the string or its byte is not a continuation
byte.  `Utf8Valid` captures the sequence structure of UTF-8 (an ASCII
byte, or a 2-, 3- or 4-byte sequence of a lead byte and continuation
bytes) — exactly what boundary reasoning needs. -/

def is_cont (b : Nat) : Bool := decide (128 ≤ b ∧ b < 192)

inductive Utf8Valid : List Nat → Prop where
  | nil : Utf8Valid []
  | ascii {b : Nat} {rest : List Nat} : b < 128 → Utf8Valid rest →
      Utf8Valid (b :: rest)
  | two {b1 b2 : Nat} {rest : List Nat} : 192 ≤ b1 → b1 < 224 →
      128 ≤ b2 → b2 < 192 → Utf8Valid rest → Utf8Valid (b1 :: b2 :: rest)
  | three {b1 b2 b3 : Nat} {rest : List Nat} : 224 ≤ b1 → b1 < 240 →
      128 ≤ b2 → b2 < 192 → 128 ≤ b3 → b3 < 192 → Utf8Valid rest →
      Utf8Valid (b1 :: b2 :: b3 :: rest)
  | four {b1 b2 b3 b4 : Nat} {rest : List Nat} : 240 ≤ b1 → b1 < 248 →
      128 ≤ b2 → b2 < 192 → 128 ≤ b3 → b3 < 192 → 128 ≤ b4 → b4 < 192 →
      Utf8Valid rest → Utf8Valid (b1 :: b2 :: b3 :: b4 :: rest)

/-- A position `p` of `L` is a UTF-8 character boundary. -/
def boundary (L : List Nat) (p : Nat) : Prop :=
  p ≤ L.length ∧ (p = L.length ∨ is_cont (L.getD p 0) = false)

theorem boundary_len (L : List Nat) : boundary L L.length :=
  ⟨Nat.le_refl _, Or.inl rfl⟩

theorem boundary_at_ascii {L : List Nat} {p : Nat} (hp : p ≤ L.length)
    (h : L.getD p 0 < 128) : boundary L p :=
  ⟨hp, Or.inr (by rw [is_cont, decide_eq_false_iff_not]; omega)⟩

theorem utf8_head_not_cont {b : Nat} {t : List Nat}
    (h : Utf8Valid (b :: t)) : is_cont b = false := by
  cases h with
  | ascii h1 _ => simp [is_cont]; omega
  | two h1 h2 h3 h4 h5 => simp [is_cont]; omega
  | three h1 h2 h3 h4 h5 h6 h7 => simp [is_cont]; omega
  | four h1 h2 h3 h4 h5 h6 h7 h8 h9 => simp [is_cont]; omega

theorem utf8_after_ascii {L : List Nat} (h : Utf8Valid L) :
    ∀ p, L.getD p 0 < 128 → is_cont (L.getD (p + 1) 0) = false := by
  induction h with
  | nil => intro p _; rw [List.getD_nil]; rfl
  | @ascii x rest hb hrest ih =>
    intro p hp
    rcases p with _ | q
    · show is_cont ((x :: rest).getD 1 0) = false
      rw [show (1 : Nat) = 0 + 1 from rfl, List.getD_cons_succ]
      cases rest with
      | nil => rw [List.getD_nil]; rfl
      | cons y t => rw [List.getD_cons_zero]; exact utf8_head_not_cont hrest
    · rw [List.getD_cons_succ] at hp
      rw [show q + 1 + 1 = (q + 1) + 1 from rfl, List.getD_cons_succ]
      exact ih q hp
  | @two b1 b2 rest h1 h2 h3 h4 hrest ih =>
    intro p hp
    rcases p with _ | _ | q
    · rw [List.getD_cons_zero] at hp; omega
    · rw [List.getD_cons_succ, List.getD_cons_zero] at hp; omega
    · rw [List.getD_cons_succ, List.getD_cons_succ] at hp
      rw [List.getD_cons_succ, List.getD_cons_succ]
      exact ih q hp
  | @three b1 b2 b3 rest h1 h2 h3 h4 h5 h6 hrest ih =>
    intro p hp
    rcases p with _ | _ | _ | q
    · rw [List.getD_cons_zero] at hp; omega
    · rw [List.getD_cons_succ, List.getD_cons_zero] at hp; omega
    · rw [List.getD_cons_succ, List.getD_cons_succ, List.getD_cons_zero] at hp
      omega
    · rw [List.getD_cons_succ, List.getD_cons_succ, List.getD_cons_succ] at hp
      rw [List.getD_cons_succ, List.getD_cons_succ, List.getD_cons_succ]
      exact ih q hp
  | @four b1 b2 b3 b4 rest h1 h2 h3 h4 h5 h6 h7 h8 hrest ih =>
    intro p hp
    rcases p with _ | _ | _ | _ | q
    · rw [List.getD_cons_zero] at hp; omega
    · rw [List.getD_cons_succ, List.getD_cons_zero] at hp; omega
    · rw [List.getD_cons_succ, List.getD_cons_succ, List.getD_cons_zero] at hp
      omega
    · rw [List.getD_cons_succ, List.getD_cons_succ, List.getD_cons_succ,
        List.getD_cons_zero] at hp
      omega
    · rw [List.getD_cons_succ, List.getD_cons_succ, List.getD_cons_succ,
        List.getD_cons_succ] at hp
      rw [List.getD_cons_succ, List.getD_cons_succ, List.getD_cons_succ,
        List.getD_cons_succ]
      exact ih q hp

theorem boundary_after_ascii {L : List Nat} (hV : Utf8Valid L) {p : Nat}
    (hp : p < L.length) (hb : L.getD p 0 < 128) : boundary L (p + 1) := by
  refine ⟨by omega, ?_⟩
  by_cases he : p + 1 = L.length
  · exact Or.inl he
  · exact Or.inr (utf8_after_ascii hV p hb)

theorem getD_drop (l : List Nat) (a i : Nat) :
    (l.drop a).getD i 0 = l.getD (a + i) 0 := by
  rw [List.getD_eq_getElem?_getD, List.getD_eq_getElem?_getD,
    List.getElem?_drop]

theorem getD_take (l : List Nat) (n i : Nat) (h : i < n) :
    (l.take n).getD i 0 = l.getD i 0 := by
  rw [List.getD_eq_getElem?_getD, List.getD_eq_getElem?_getD,
    List.getElem?_take]
  simp [h]

theorem head?_drop_some {src : List Nat} {pos b : Nat}
    (h : (src.drop pos).head? = some b) :
    pos < src.length ∧ src.getD pos 0 = b := by
  constructor
  · by_contra hc
    rw [List.drop_eq_nil_of_le (by omega)] at h
    exact Option.noConfusion h
  · have h0 : (src.drop pos)[0]? = some b := by
      rwa [← List.head?_eq_getElem?]
    rw [List.getElem?_drop, Nat.add_zero] at h0
    rw [List.getD_eq_getElem?_getD, h0]
    rfl

theorem utf8_dropLast_ascii {L : List Nat} (h : Utf8Valid L) :
    ∀ b, L.getLast? = some b → b < 128 → Utf8Valid L.dropLast := by
  induction h with
  | nil => intro b hb _; simp at hb
  | @ascii x rest hb' hrest ih =>
    intro b hb hba
    cases rest with
    | nil => exact Utf8Valid.nil
    | cons y t =>
      rw [List.dropLast_cons₂]
      refine Utf8Valid.ascii hb' ?_
      rw [List.getLast?_cons_cons] at hb
      exact ih b hb hba
  | @two b1 b2 rest h1 h2 h3 h4 hrest ih =>
    intro b hb hba
    cases rest with
    | nil =>
      rw [List.getLast?_cons_cons] at hb
      simp at hb
      omega
    | cons y t =>
      rw [List.dropLast_cons₂, List.dropLast_cons₂]
      refine Utf8Valid.two h1 h2 h3 h4 ?_
      rw [List.getLast?_cons_cons, List.getLast?_cons_cons] at hb
      exact ih b hb hba
  | @three b1 b2 b3 rest h1 h2 h3 h4 h5 h6 hrest ih =>
    intro b hb hba
    cases rest with
    | nil =>
      rw [List.getLast?_cons_cons, List.getLast?_cons_cons] at hb
      simp at hb
      omega
    | cons y t =>
      rw [List.dropLast_cons₂, List.dropLast_cons₂, List.dropLast_cons₂]
      refine Utf8Valid.three h1 h2 h3 h4 h5 h6 ?_
      rw [List.getLast?_cons_cons, List.getLast?_cons_cons,
        List.getLast?_cons_cons] at hb
      exact ih b hb hba
  | @four b1 b2 b3 b4 rest h1 h2 h3 h4 h5 h6 h7 h8 hrest ih =>
    intro b hb hba
    cases rest with
    | nil =>
      rw [List.getLast?_cons_cons, List.getLast?_cons_cons,
        List.getLast?_cons_cons] at hb
      simp at hb
      omega
    | cons y t =>
      rw [List.dropLast_cons₂, List.dropLast_cons₂, List.dropLast_cons₂,
        List.dropLast_cons₂]
      refine Utf8Valid.four h1 h2 h3 h4 h5 h6 h7 h8 ?_
      rw [List.getLast?_cons_cons, List.getLast?_cons_cons,
        List.getLast?_cons_cons, List.getLast?_cons_cons] at hb
      exact ih b hb hba

theorem utf8_strip_crlf {L : List Nat} (h : Utf8Valid L) :
    Utf8Valid (strip_crlf L) := by
  rw [strip_crlf]
  split_ifs with h1 h2 h3
  · exact utf8_dropLast_ascii (utf8_dropLast_ascii h 10 h1 (by omega)) 13 h2
      (by omega)
  · exact utf8_dropLast_ascii h 10 h1 (by omega)
  · exact utf8_dropLast_ascii h 13 h3 (by omega)
  · exact h

theorem strip_crlf_length_le (L : List Nat) :
    (strip_crlf L).length ≤ L.length := by
  rw [strip_crlf]
  split_ifs <;> simp [List.length_dropLast] <;> omega

theorem dropLast_getD (l : List Nat) (p : Nat) (hp : p < l.dropLast.length) :
    l.dropLast.getD p 0 = l.getD p 0 := by
  rw [List.dropLast_eq_take]
  exact getD_take l (l.length - 1) p (by simpa [List.length_dropLast] using hp)

theorem strip_crlf_getD (L : List Nat) (p : Nat)
    (hp : p < (strip_crlf L).length) :
    (strip_crlf L).getD p 0 = L.getD p 0 := by
  rw [strip_crlf] at hp ⊢
  split_ifs at hp ⊢ with h1 h2 h3
  · rw [dropLast_getD _ _ (by simpa using hp),
      dropLast_getD _ _ (by simp at hp ⊢; omega)]
  · exact dropLast_getD _ _ (by simpa using hp)
  · exact dropLast_getD _ _ (by simpa using hp)
  · rfl

theorem getLast?_getD {l : List Nat} {b : Nat} (h : l.getLast? = some b) :
    l.getD (l.length - 1) 0 = b := by
  rw [List.getLast?_eq_getElem?] at h
  rw [List.getD_eq_getElem?_getD, h]
  rfl

theorem strip_crlf_cut (L : List Nat) :
    (strip_crlf L).length = L.length ∨
      ((strip_crlf L).length < L.length ∧
        L.getD (strip_crlf L).length 0 < 128) := by
  rw [strip_crlf]
  split_ifs with h1 h2 h3
  · right
    have hne : L ≠ [] := by
      intro he; rw [he] at h1; simp at h1
    have hne2 : L.dropLast ≠ [] := by
      intro he; rw [he] at h2; simp at h2
    have hlen : 2 ≤ L.length := by
      have := List.length_dropLast L
      rcases Nat.lt_or_ge L.length 2 with hl | hl
      · exfalso
        apply hne2
        have : L.dropLast.length = 0 := by omega
        exact List.eq_nil_of_length_eq_zero this
      · exact hl
    constructor
    · simp [List.length_dropLast]; omega
    · have hb := getLast?_getD h2
      rw [dropLast_getD _ _ (by simp [List.length_dropLast]; omega)] at hb
      simp only [List.length_dropLast] at hb ⊢
      omega
  · right
    have hne : L ≠ [] := by
      intro he; rw [he] at h1; simp at h1
    have hlen : 1 ≤ L.length := by
      cases L with
      | nil => exact absurd rfl hne
      | cons x t => simp
    constructor
    · simp [List.length_dropLast]; omega
    · have hb := getLast?_getD h1
      rw [List.length_dropLast]
      omega
  · right
    have hne : L ≠ [] := by
      intro he; rw [he] at h3; simp at h3
    have hlen : 1 ≤ L.length := by
      cases L with
      | nil => exact absurd rfl hne
      | cons x t => simp
    constructor
    · simp [List.length_dropLast]; omega
    · have hb := getLast?_getD h3
      rw [List.length_dropLast]
      omega
  · left; rfl

theorem boundary_of_strip {L : List Nat} {p : Nat}
    (hb : boundary (strip_crlf L) p) : boundary L p := by
  rcases hb with ⟨hle, hor⟩
  have hsl := strip_crlf_length_le L
  refine ⟨by omega, ?_⟩
  rcases hor with he | hc
  · subst he
    rcases strip_crlf_cut L with hcut | ⟨hlt, hbyte⟩
    · exact Or.inl hcut
    · exact Or.inr (by rw [is_cont, decide_eq_false_iff_not]; omega)
  · rcases Nat.lt_or_ge p (strip_crlf L).length with hlt | hge
    · rw [strip_crlf_getD L p hlt] at hc
      exact Or.inr hc
    · have he : p = (strip_crlf L).length := by omega
      subst he
      rcases strip_crlf_cut L with hcut | ⟨hlt2, hbyte⟩
      · exact Or.inl hcut
      · exact Or.inr (by rw [is_cont, decide_eq_false_iff_not]; omega)

theorem findChar_drop_facts {src : List Nat} {a c k : Nat}
    (h : findChar (src.drop a) c = some k) :
    a + k < src.length ∧ src.getD (a + k) 0 = c := by
  rcases (findChar_eq_some_iff _ c k).mp h with ⟨h1, h2, _⟩
  rw [List.length_drop] at h1
  rw [getD_drop] at h2
  exact ⟨by omega, h2⟩

theorem find_equals_drop_facts {src : List Nat} {a off : Nat}
    (h : find_equals (src.drop a) = some off) :
    a + off < src.length ∧ src.getD (a + off) 0 = 61 := by
  rw [find_equals_eq] at h
  exact findChar_drop_facts h

theorem fss_drop_semi_facts {src : List Nat} {a v : Nat}
    (h : find_semi_or_space (src.drop a) = some (.semi v)) :
    a + v < src.length ∧ src.getD (a + v) 0 = 59 := by
  rw [find_semi_or_space_eq] at h
  rcases (sss_semi_iff _ v).mp h with ⟨h1, h2, _⟩
  rw [List.length_drop] at h1
  rw [getD_drop] at h2
  exact ⟨by omega, h2⟩

theorem fss_drop_space_facts {src : List Nat} {a v : Nat}
    (h : find_semi_or_space (src.drop a) = some (.space v)) :
    a + v < src.length ∧ src.getD (a + v) 0 = 32 := by
  rw [find_semi_or_space_eq] at h
  rcases (sss_space_iff _ v).mp h with ⟨h1, h2, _⟩
  rw [List.length_drop] at h1
  rw [getD_drop] at h2
  exact ⟨by omega, h2⟩

/-- Well-formed span: within bounds and on character boundaries. -/
def span_wf (L : List Nat) (s : Span) : Prop :=
  s.start ≤ s.stop ∧ s.stop ≤ L.length ∧ boundary L s.start ∧ boundary L s.stop

/-- Both spans of a raw tag are well-formed. -/
def tag_wf (L : List Nat) (t : RawTag) : Prop :=
  span_wf L t.key_span ∧ span_wf L t.value_span

theorem mem_maybe_insert {keep : Whitelist} {src : List Nat}
    {tags : List RawTag} {k v : Span} {t : RawTag}
    (h : t ∈ maybe_insert keep src tags k v) :
    t ∈ tags ∨ (t.key_span = k ∧ t.value_span = v) := by
  rw [maybe_insert] at h
  by_cases hk : keep src k v
  · rw [if_pos hk] at h
    rcases List.mem_append.mp h with h | h
    · exact Or.inl h
    · simp at h
      exact Or.inr ⟨by rw [h], by rw [h]⟩
  · rw [if_neg hk] at h
    exact Or.inl h

theorem slice_getD {src : List Nat} {a n i : Nat} (hi : i < n) :
    (slice src ⟨a, a + n⟩).getD i 0 = src.getD (a + i) 0 := by
  rw [slice]
  dsimp only
  rw [show a + n - a = n by omega, getD_take _ _ _ hi, getD_drop]

theorem slice_len {src : List Nat} {a n : Nat} (h : a + n ≤ src.length) :
    (slice src ⟨a, a + n⟩).length = n := by
  rw [slice]
  dsimp only
  rw [show a + n - a = n by omega]
  simp [List.length_take, List.length_drop]
  omega

theorem parse_tags_loop_wf (src : List Nat) (keep : Whitelist)
    (hV : Utf8Valid src) :
    ∀ f ks tags, boundary src ks → (∀ t ∈ tags, tag_wf src t) →
      (∀ t ∈ (parse_tags_loop src keep f ks tags).1, tag_wf src t)
      ∧ boundary src (parse_tags_loop src keep f ks tags).2 := by
  intro f
  induction f with
  | zero => intro ks tags hb ht; exact ⟨ht, hb⟩
  | succ f ih =>
    intro ks tags hb ht
    rw [parse_tags_loop]
    by_cases hks : src.length ≤ ks
    · rw [if_pos hks]
      exact ⟨ht, hb⟩
    · rw [if_neg hks]
      cases h1 : find_equals (src.drop ks) with
      | none => dsimp only; exact ⟨ht, hb⟩
      | some off =>
        dsimp only
        obtain ⟨hlt1, hbyte1⟩ := find_equals_drop_facts h1
        have hbyte1' : src.getD (off + ks) 0 = 61 := by
          rw [Nat.add_comm off ks]; exact hbyte1
        have hb_ke : boundary src (off + ks) :=
          boundary_at_ascii (by omega) (by rw [hbyte1']; omega)
        have hb_vs : boundary src (off + ks + 1) :=
          boundary_after_ascii hV (by omega) (by rw [hbyte1']; omega)
        cases h2 : find_semi_or_space (src.drop (off + ks + 1)) with
        | none =>
          dsimp only
          refine ⟨?_, boundary_len src⟩
          intro t hmem
          rcases mem_maybe_insert hmem with hold | ⟨hk, hv⟩
          · exact ht t hold
          · constructor
            · rw [hk]
              exact ⟨by show ks ≤ off + ks; omega,
                by show off + ks ≤ src.length; omega, hb, hb_ke⟩
            · rw [hv]
              exact ⟨by show off + ks + 1 ≤ src.length; omega,
                Nat.le_refl _, hb_vs, boundary_len src⟩
        | some fnd =>
          cases fnd with
          | semi v =>
            dsimp only
            obtain ⟨hlt2, hbyte2⟩ := fss_drop_semi_facts h2
            have hbyte2' : src.getD (v + (off + ks + 1)) 0 = 59 := by
              rw [Nat.add_comm v (off + ks + 1)]; exact hbyte2
            have hb_ve : boundary src (v + (off + ks + 1)) :=
              boundary_at_ascii (by omega) (by rw [hbyte2']; omega)
            have hb_ks2 : boundary src (v + (off + ks + 1) + 1) :=
              boundary_after_ascii hV (by omega) (by rw [hbyte2']; omega)
            apply ih _ _ hb_ks2
            intro t hmem
            rcases mem_maybe_insert hmem with hold | ⟨hk, hv⟩
            · exact ht t hold
            · constructor
              · rw [hk]
                exact ⟨by show ks ≤ off + ks; omega,
                  by show off + ks ≤ src.length; omega, hb, hb_ke⟩
              · rw [hv]
                exact ⟨by show off + ks + 1 ≤ v + (off + ks + 1); omega,
                  by show v + (off + ks + 1) ≤ src.length; omega, hb_vs, hb_ve⟩
          | space v =>
            dsimp only
            obtain ⟨hlt2, hbyte2⟩ := fss_drop_space_facts h2
            have hbyte2' : src.getD (v + (off + ks + 1)) 0 = 32 := by
              rw [Nat.add_comm v (off + ks + 1)]; exact hbyte2
            have hb_ve : boundary src (v + (off + ks + 1)) :=
              boundary_at_ascii (by omega) (by rw [hbyte2']; omega)
            have hb_ks2 : boundary src (v + (off + ks + 1) + 1) :=
              boundary_after_ascii hV (by omega) (by rw [hbyte2']; omega)
            refine ⟨?_, hb_ks2⟩
            intro t hmem
            rcases mem_maybe_insert hmem with hold | ⟨hk, hv⟩
            · exact ht t hold
            · constructor
              · rw [hk]
                exact ⟨by show ks ≤ off + ks; omega,
                  by show off + ks ≤ src.length; omega, hb, hb_ke⟩
              · rw [hv]
                exact ⟨by show off + ks + 1 ≤ v + (off + ks + 1); omega,
                  by show v + (off + ks + 1) ≤ src.length; omega, hb_vs, hb_ve⟩

theorem parse_tags_wf (src : List Nat) (keep : Whitelist) (hV : Utf8Valid src)
    {pos : Nat} (hb : boundary src pos) :
    (∀ t ∈ (parse_tags src pos keep).1, tag_wf src t)
    ∧ boundary src (parse_tags src pos keep).2 := by
  rw [parse_tags]
  by_cases h : (src.drop pos).head? = some 64
  · rw [if_pos h]
    obtain ⟨hlt, hbyte⟩ := head?_drop_some h
    refine parse_tags_loop_wf src keep hV _ _ []
      (boundary_after_ascii hV hlt (by rw [hbyte]; omega)) ?_
    intro t htm
    simp at htm
  · rw [if_neg h]
    exact ⟨by intro t htm; simp at htm, hb⟩

theorem parsePfx_wf {src : List Nat} (hV : Utf8Valid src) {pos : Nat}
    (hb : boundary src pos) :
    ∀ pfx p2, parsePfx src pos = some (pfx, p2) →
      boundary src p2 ∧
      ∀ pr, pfx = some pr →
        (∀ sn, pr.nick = some sn → span_wf src sn) ∧
        (∀ su, pr.user = some su → span_wf src su) ∧
        span_wf src pr.host := by
  intro pfx p2 hp
  rw [parsePfx] at hp
  by_cases hcolon : (src.drop pos).head? = some 58
  · rw [if_pos hcolon] at hp
    obtain ⟨hplt, hpbyte⟩ := head?_drop_some hcolon
    cases hsp : findChar (src.drop (pos + 1)) 32 with
    | none => rw [hsp] at hp; exact Option.noConfusion hp
    | some sp =>
      rw [hsp] at hp
      dsimp only at hp
      obtain ⟨hsplt, hspbyte⟩ := findChar_drop_facts hsp
      have hbs : boundary src (pos + 1) :=
        boundary_after_ascii hV hplt (by rw [hpbyte]; omega)
      have hbsp : boundary src (pos + 1 + sp) :=
        boundary_at_ascii (by omega) (by rw [hspbyte]; omega)
      have hbp2 : boundary src (pos + 1 + sp + 1) :=
        boundary_after_ascii hV (by omega) (by rw [hspbyte]; omega)
      have htoklen : (slice src ⟨pos + 1, pos + 1 + sp⟩).length = sp :=
        slice_len (by omega)
      cases hbang : findChar (slice src ⟨pos + 1, pos + 1 + sp⟩) 33 with
      | some bang =>
        rw [hbang] at hp
        dsimp only at hp
        obtain ⟨hbang_lt, hbang_byte, _⟩ :=
          (findChar_eq_some_iff _ 33 bang).mp hbang
        rw [htoklen] at hbang_lt
        rw [slice_getD hbang_lt] at hbang_byte
        have hb_bang : boundary src (pos + 1 + bang) :=
          boundary_at_ascii (by omega) (by rw [hbang_byte]; omega)
        have hb_after_bang : boundary src (pos + 1 + bang + 1) :=
          boundary_after_ascii hV (by omega) (by rw [hbang_byte]; omega)
        cases hat : findChar
            ((slice src ⟨pos + 1, pos + 1 + sp⟩).drop (bang + 1)) 64 with
        | some a =>
          rw [hat] at hp
          dsimp only at hp
          obtain ⟨ha_lt, ha_byte, _⟩ := (findChar_eq_some_iff _ 64 a).mp hat
          rw [List.length_drop, htoklen] at ha_lt
          rw [getD_drop, slice_getD (by omega : bang + 1 + a < sp)] at ha_byte
          have ha_byte' : src.getD (pos + 1 + bang + 1 + a) 0 = 64 := by
            rw [show pos + 1 + bang + 1 + a = pos + 1 + (bang + 1 + a) by
              omega]
            exact ha_byte
          have hb_at : boundary src (pos + 1 + bang + 1 + a) :=
            boundary_at_ascii (by omega) (by rw [ha_byte']; omega)
          have hb_after_at : boundary src (pos + 1 + bang + 1 + a + 1) :=
            boundary_after_ascii hV (by omega) (by rw [ha_byte']; omega)
          cases Option.some.inj hp
          refine ⟨hbp2, ?_⟩
          intro pr hpr
          cases Option.some.inj hpr
          refine ⟨?_, ?_, ?_⟩
          · intro sn hsn
            cases Option.some.inj hsn
            exact ⟨by show pos + 1 ≤ pos + 1 + bang; omega,
              by show pos + 1 + bang ≤ src.length; omega, hbs, hb_bang⟩
          · intro su hsu
            cases Option.some.inj hsu
            exact ⟨by show pos + 1 + bang + 1 ≤ pos + 1 + bang + 1 + a; omega,
              by show pos + 1 + bang + 1 + a ≤ src.length; omega,
              hb_after_bang, hb_at⟩
          · exact ⟨by show pos + 1 + bang + 1 + a + 1 ≤ pos + 1 + sp; omega,
              by show pos + 1 + sp ≤ src.length; omega, hb_after_at, hbsp⟩
        | none =>
          rw [hat] at hp
          dsimp only at hp
          cases Option.some.inj hp
          refine ⟨hbp2, ?_⟩
          intro pr hpr
          cases Option.some.inj hpr
          refine ⟨?_, ?_, ?_⟩
          · intro sn hsn; exact Option.noConfusion hsn
          · intro su hsu; exact Option.noConfusion hsu
          · exact ⟨by show pos + 1 ≤ pos + 1 + sp; omega,
              by show pos + 1 + sp ≤ src.length; omega, hbs, hbsp⟩
      | none =>
        rw [hbang] at hp
        dsimp only at hp
        cases hat : findChar (slice src ⟨pos + 1, pos + 1 + sp⟩) 64 with
        | some a =>
          rw [hat] at hp
          dsimp only at hp
          obtain ⟨ha_lt, ha_byte, _⟩ := (findChar_eq_some_iff _ 64 a).mp hat
          rw [htoklen] at ha_lt
          rw [slice_getD ha_lt] at ha_byte
          have hb_at : boundary src (pos + 1 + a) :=
            boundary_at_ascii (by omega) (by rw [ha_byte]; omega)
          have hb_after_at : boundary src (pos + 1 + a + 1) :=
            boundary_after_ascii hV (by omega) (by rw [ha_byte]; omega)
          cases Option.some.inj hp
          refine ⟨hbp2, ?_⟩
          intro pr hpr
          cases Option.some.inj hpr
          refine ⟨?_, ?_, ?_⟩
          · intro sn hsn
            cases Option.some.inj hsn
            exact ⟨by show pos + 1 ≤ pos + 1 + a; omega,
              by show pos + 1 + a ≤ src.length; omega, hbs, hb_at⟩
          · intro su hsu; exact Option.noConfusion hsu
          · exact ⟨by show pos + 1 + a + 1 ≤ pos + 1 + sp; omega,
              by show pos + 1 + sp ≤ src.length; omega, hb_after_at, hbsp⟩
        | none =>
          rw [hat] at hp
          dsimp only at hp
          cases Option.some.inj hp
          refine ⟨hbp2, ?_⟩
          intro pr hpr
          cases Option.some.inj hpr
          refine ⟨?_, ?_, ?_⟩
          · intro sn hsn; exact Option.noConfusion hsn
          · intro su hsu; exact Option.noConfusion hsu
          · exact ⟨by show pos + 1 ≤ pos + 1 + sp; omega,
              by show pos + 1 + sp ≤ src.length; omega, hbs, hbsp⟩
  · rw [if_neg hcolon] at hp
    cases Option.some.inj hp
    refine ⟨hb, ?_⟩
    intro pr hpr
    exact Option.noConfusion hpr

theorem command_resolve_other {src : List Nat} {s sp : Span}
    (h : Command.resolve src s = .other sp) : sp = s := by
  rw [Command.resolve] at h
  split_ifs at h
  all_goals
    first
    | exact Command.noConfusion h
    | (injection h with h2; exact h2.symm)

theorem parse_command_wf {src : List Nat} (hV : Utf8Valid src) {pos : Nat}
    (hb : boundary src pos) :
    ∀ cmd p3, parse_command src pos = some (cmd, p3) →
      boundary src p3 ∧ ∀ sp, cmd = Command.other sp → span_wf src sp := by
  intro cmd p3 hp
  rw [parse_command] at hp
  cases hk : findChar (src.drop pos) 32 with
  | some k =>
    rw [hk] at hp
    dsimp only at hp
    by_cases hk0 : k = 0
    · rw [if_pos hk0] at hp; exact Option.noConfusion hp
    · rw [if_neg hk0] at hp
      obtain ⟨hklt, hkbyte⟩ := findChar_drop_facts hk
      cases Option.some.inj hp
      have hbstop : boundary src (pos + k) :=
        boundary_at_ascii (by omega) (by rw [hkbyte]; omega)
      refine ⟨boundary_after_ascii hV (by omega) (by rw [hkbyte]; omega), ?_⟩
      intro sp hsp
      rw [command_resolve_other hsp]
      exact ⟨by show pos ≤ pos + k; omega,
        by show pos + k ≤ src.length; omega, hb, hbstop⟩
  | none =>
    rw [hk] at hp
    dsimp only at hp
    by_cases hle : src.length ≤ pos
    · rw [if_pos hle] at hp; exact Option.noConfusion hp
    · rw [if_neg hle] at hp
      cases Option.some.inj hp
      refine ⟨boundary_len src, ?_⟩
      intro sp hsp
      rw [command_resolve_other hsp]
      exact ⟨by show pos ≤ src.length; omega, Nat.le_refl _, hb,
        boundary_len src⟩

theorem parse_channel_wf {src : List Nat} (hV : Utf8Valid src) {pos : Nat}
    (hb : boundary src pos) :
    boundary src (parse_channel src pos).2 ∧
      ∀ sp, (parse_channel src pos).1 = some sp → span_wf src sp := by
  rw [parse_channel]
  by_cases hhash : (src.drop pos).head? = some 35
  · rw [if_pos hhash]
    obtain ⟨hlt, hbyte⟩ := head?_drop_some hhash
    have hb1 : boundary src (pos + 1) :=
      boundary_after_ascii hV hlt (by rw [hbyte]; omega)
    cases hk : findChar (src.drop (pos + 1)) 32 with
    | some k =>
      dsimp only
      obtain ⟨hklt, hkbyte⟩ := findChar_drop_facts hk
      have hbstop : boundary src (pos + 1 + k) :=
        boundary_at_ascii (by omega) (by rw [hkbyte]; omega)
      refine ⟨boundary_after_ascii hV (by omega) (by rw [hkbyte]; omega), ?_⟩
      intro sp hsp
      cases Option.some.inj hsp
      exact ⟨by show pos + 1 ≤ pos + 1 + k; omega,
        by show pos + 1 + k ≤ src.length; omega, hb1, hbstop⟩
    | none =>
      dsimp only
      refine ⟨boundary_len src, ?_⟩
      intro sp hsp
      cases Option.some.inj hsp
      exact ⟨by show pos + 1 ≤ src.length; omega, Nat.le_refl _, hb1,
        boundary_len src⟩
  · rw [if_neg hhash]
    exact ⟨hb, by intro sp hsp; exact Option.noConfusion hsp⟩

theorem find_sc_facts : ∀ (l : List Nat) (r : Nat), find_sc l = some r →
    r + 1 < l.length ∧ l.getD r 0 = 32 ∧ l.getD (r + 1) 0 = 58 := by
  intro l
  induction l with
  | nil => intro r h; simp [find_sc] at h
  | cons x xs ih =>
    intro r h
    cases xs with
    | nil => simp [find_sc] at h
    | cons y t =>
      rw [find_sc] at h
      by_cases hxy : x = 32 ∧ y = 58
      · rw [if_pos hxy] at h
        cases Option.some.inj h
        refine ⟨by simp, ?_, ?_⟩
        · rw [List.getD_cons_zero]; exact hxy.1
        · rw [show (0 : Nat) + 1 = 0 + 1 from rfl, List.getD_cons_succ,
            List.getD_cons_zero]
          exact hxy.2
      · rw [if_neg hxy] at h
        rcases Option.map_eq_some'.mp h with ⟨r', hr', rfl⟩
        obtain ⟨h1, h2, h3⟩ := ih r' hr'
        refine ⟨by simp at h1 ⊢; omega, ?_, ?_⟩
        · rw [List.getD_cons_succ]; exact h2
        · rw [show r' + 1 + 1 = (r' + 1) + 1 from rfl, List.getD_cons_succ]
          exact h3

theorem boundary_zero {src : List Nat} (hV : Utf8Valid src) :
    boundary src 0 := by
  cases src with
  | nil => exact ⟨Nat.le_refl _, Or.inl rfl⟩
  | cons x t =>
    refine ⟨Nat.zero_le _, Or.inr ?_⟩
    rw [List.getD_cons_zero]
    exact utf8_head_not_cont hV

/-- All spans a parsed message carries: tag keys and values, prefix parts,
the unknown-command span, channel, params and text. -/
def msg_spans (m : IrcMessage) : List Span :=
  (m.tags.bind fun t => [t.key_span, t.value_span])
    ++ (match m.pfx with
        | none => []
        | some pr => pr.nick.toList ++ pr.user.toList ++ [pr.host])
    ++ (match m.command with
        | .other sp => [sp]
        | _ => [])
    ++ m.channel.toList ++ m.params.toList ++ m.text.toList

theorem parse_message_wf (src0 : List Nat) (keep : Whitelist)
    (hV : Utf8Valid src0) :
    ∀ m, parse_message src0 keep = some m →
      ∀ s ∈ msg_spans m, span_wf (strip_crlf src0) s := by
  intro m hm s hs
  have hVs : Utf8Valid (strip_crlf src0) := utf8_strip_crlf hV
  rw [parse_message] at hm
  dsimp only at hm
  obtain ⟨htags_wf, hcur⟩ :=
    parse_tags_wf (strip_crlf src0) keep hVs (boundary_zero hVs)
  cases hpfx : parsePfx (strip_crlf src0)
      (parse_tags (strip_crlf src0) 0 keep).2 with
  | none => rw [hpfx] at hm; exact Option.noConfusion hm
  | some pr2 =>
    obtain ⟨pfx, p2⟩ := pr2
    rw [hpfx] at hm
    dsimp only at hm
    obtain ⟨hbp2, hpfx_wf⟩ := parsePfx_wf hVs hcur pfx p2 hpfx
    cases hcmd : parse_command (strip_crlf src0) p2 with
    | none => rw [hcmd] at hm; exact Option.noConfusion hm
    | some cp =>
      obtain ⟨cmd, p3⟩ := cp
      rw [hcmd] at hm
      dsimp only at hm
      obtain ⟨hbp3, hcmd_wf⟩ := parse_command_wf hVs hbp2 cmd p3 hcmd
      obtain ⟨hbp4, hchan_wf⟩ := parse_channel_wf hVs hbp3
      cases Option.some.inj hm
      rw [msg_spans] at hs
      dsimp only at hs
      simp only [List.mem_append] at hs
      rcases hs with ((((htag | hpfxm) | hcmdm) | hchm) | hpm) | htxt
      · rcases List.mem_bind.mp htag with ⟨t, htmem, hsmem⟩
        obtain ⟨hkwf, hvwf⟩ := htags_wf t htmem
        simp at hsmem
        rcases hsmem with rfl | rfl
        · exact hkwf
        · exact hvwf
      · cases pfx with
        | none => simp at hpfxm
        | some pr =>
          obtain ⟨hn, hu, hh⟩ := hpfx_wf pr rfl
          dsimp only at hpfxm
          rcases List.mem_append.mp hpfxm with hnu | hhost
          · rcases List.mem_append.mp hnu with hni | hus
            · cases hnick : pr.nick with
              | none => rw [hnick] at hni; simp at hni
              | some sn =>
                rw [hnick] at hni
                simp at hni
                rw [hni]
                exact hn sn hnick
            · cases huser : pr.user with
              | none => rw [huser] at hus; simp at hus
              | some su =>
                rw [huser] at hus
                simp at hus
                rw [hus]
                exact hu su huser
          · simp at hhost
            rw [hhost]
            exact hh
      · cases cmd with
        | other sp =>
          simp at hcmdm
          rw [hcmdm]
          exact hcmd_wf sp rfl
        | ping => simp at hcmdm
        | pong => simp at hcmdm
        | privmsg => simp at hcmdm
        | join => simp at hcmdm
        | part => simp at hcmdm
        | reconnect => simp at hcmdm
        | usernotice => simp at hcmdm
      · cases hch : (parse_channel (strip_crlf src0) p3).1 with
        | none => rw [hch] at hchm; simp at hchm
        | some sp =>
          rw [hch] at hchm
          simp at hchm
          rw [hchm]
          exact hchan_wf sp hch
      · by_cases hplen :
            (parse_channel (strip_crlf src0) p3).2 < (strip_crlf src0).length
        · rw [if_pos hplen] at hpm
          simp at hpm
          rw [hpm]
          refine ⟨?_, Nat.le_refl _, hbp4, boundary_len _⟩
          show (parse_channel (strip_crlf src0) p3).2 ≤ (strip_crlf src0).length
          omega
        · rw [if_neg hplen] at hpm
          simp at hpm
      · by_cases hguard : (parse_channel (strip_crlf src0) p3).2 = 0 ∨
            (strip_crlf src0).length ≤ (parse_channel (strip_crlf src0) p3).2
        · rw [if_pos hguard] at htxt
          simp at htxt
        · rw [if_neg hguard] at htxt
          push_neg at hguard
          obtain ⟨hne0, hltlen⟩ := hguard
          cases hsc : find_sc ((strip_crlf src0).drop
              ((parse_channel (strip_crlf src0) p3).2 - 1)) with
          | none => rw [hsc] at htxt; simp at htxt
          | some r =>
            rw [hsc] at htxt
            simp at htxt
            rw [htxt]
            obtain ⟨hr1, hr2, hr3⟩ := find_sc_facts _ r hsc
            rw [List.length_drop] at hr1
            rw [getD_drop] at hr2 hr3
            have hb58 : (strip_crlf src0).getD
                ((parse_channel (strip_crlf src0) p3).2 - 1 + r + 1) 0 = 58 := by
              rw [show (parse_channel (strip_crlf src0) p3).2 - 1 + r + 1
                  = (parse_channel (strip_crlf src0) p3).2 - 1 + (r + 1) by
                omega]
              exact hr3
            refine ⟨?_, Nat.le_refl _, ?_, boundary_len _⟩
            · show (parse_channel (strip_crlf src0) p3).2 - 1 + r + 2
                ≤ (strip_crlf src0).length
              omega
            · rw [show (parse_channel (strip_crlf src0) p3).2 - 1 + r + 2
                  = (parse_channel (strip_crlf src0) p3).2 - 1 + r + 1 + 1 by
                omega]
              exact boundary_after_ascii hVs (by omega) (by rw [hb58]; omega)

/-- C4: every span of a successfully parsed message lies within the input
and falls on UTF-8 character boundaries of it, so each span resolves to a
valid substring. -/
theorem c4_spans_in_bounds_on_boundaries (L : List Nat) (m : IrcMessage)
    (hV : Utf8Valid L)
    (hm : parse_message L whitelist_insert_all = some m) :
    ∀ s ∈ msg_spans m,
      s.start ≤ s.stop ∧ s.stop ≤ L.length ∧
      boundary L s.start ∧ boundary L s.stop := by
  intro s hs
  obtain ⟨h1, h2, h3, h4⟩ :=
    parse_message_wf L whitelist_insert_all hV m hm s hs
  exact ⟨h1, Nat.le_trans h2 (strip_crlf_length_le L),
    boundary_of_strip h3, boundary_of_strip h4⟩

/-- The bytes of `"@a=b :n!u@h PRIVMSG #c :hi"`. -/
def c4L : List Nat :=
  [64, 97, 61, 98, 32, 58, 110, 33, 117, 64, 104, 32, 80, 82, 73, 86, 77,
    83, 71, 32, 35, 99, 32, 58, 104, 105]

/-- The message `c4L` parses to. -/
def c4M : IrcMessage :=
  { tags := [⟨.unknown ⟨1, 2⟩, ⟨1, 2⟩, ⟨3, 4⟩⟩]
    pfx := some ⟨some ⟨6, 7⟩, some ⟨8, 9⟩, ⟨10, 11⟩⟩
    command := .privmsg
    channel := some ⟨21, 22⟩
    params := some ⟨23, 26⟩
    text := some ⟨24, 26⟩ }

theorem c4_spans_witness :
    Utf8Valid c4L ∧ parse_message c4L whitelist_insert_all = some c4M ∧
    ∀ s ∈ msg_spans c4M,
      s.start ≤ s.stop ∧ s.stop ≤ c4L.length ∧
      boundary c4L s.start ∧ boundary c4L s.stop := by
  have hv : Utf8Valid c4L := by
    show Utf8Valid [64, 97, 61, 98, 32, 58, 110, 33, 117, 64, 104, 32, 80,
      82, 73, 86, 77, 83, 71, 32, 35, 99, 32, 58, 104, 105]
    repeat first
      | exact Utf8Valid.nil
      | refine Utf8Valid.ascii (by decide) ?_
  have hp : parse_message c4L whitelist_insert_all = some c4M := by decide
  exact ⟨hv, hp, c4_spans_in_bounds_on_boundaries c4L c4M hv hp⟩
